import Mathlib

/-!
# BC127 command engine (`bc127.cpp`, `bc127.h`)

A shallow embedding of the serial command engine of the BC127 driver:
`knownStart`, `stdCmd`, `stdSetParam`, `stdGetParam`, `reset`, `setBaudRate`
and `addressQuery`.

The serial port and the millisecond clock are the environment.  They are
modelled as two oracles threaded through every operation in `World`:

* `clock k` is the value returned by the `k`-th call of `millis()`;
* `serialIn k` is the outcome of the `k`-th poll of the port: `none` when
  `readable()` is not `1`, `some c` when it is `1` and the following `getc()`
  returns `c`.

Every busy-wait loop of the source takes a `fuel` bound on the number of
iterations; `none` means the bound was reached before the loop returned.
Timestamps are `unsigned long`, taken as 32 bits wide.
-/

namespace BC127

/-! ## Data model -/

/-- The `opResult` enumeration of `bc127.h`. -/
inductive opResult where
  | REMOTE_ERROR
  | CONNECT_ERROR
  | INVALID_PARAM
  | TIMEOUT_ERROR
  | MODULE_ERROR
  | DEFAULT_ERR
  | SUCCESS
  deriving DecidableEq

open opResult

/-- The `baudRates` enumeration of `bc127.h`, as its underlying integer: a C++
enumeration object can hold values other than its enumerators. -/
abbrev baudRates := Int

def s9600bps : baudRates := 0
def s19200bps : baudRates := 1
def s38400bps : baudRates := 2
def s57600bps : baudRates := 3
def s115200bps : baudRates := 4

/-- Number of values of an `unsigned long` timestamp (32 bits). -/
def ULONG_MODULUS : Nat := 4294967296

/-- The environment of the engine: the clock and the serial port. -/
structure World where
  /-- Value of the `k`-th call of `millis()`. -/
  clock : Nat → Nat
  /-- Number of calls of `millis()` made so far. -/
  clockCalls : Nat
  /-- Outcome of the `k`-th poll of the port. -/
  serialIn : Nat → Option Char
  /-- Number of polls of the port made so far. -/
  polls : Nat
  /-- Every byte written to the port so far, oldest first. -/
  written : List Char
  /-- Every byte read from the port so far, oldest first. -/
  consumed : List Char

/-! ## The `string` class

The driver uses a `string` class with the methods `concat`, `endsWith`,
`startsWith`, `substring`, `trim`, `length` and `c_str`; its definition is not
part of the two source files. -/

/-- Modelled from the spec: `string::concat(char)` (the class is not under
src/), "append it to the Line Buffer". -/
def concat (s : List Char) (c : Char) : List Char := s ++ [c]

/-- Modelled from the spec: `string::endsWith` (the class is not under src/),
"the buffer's suffix equals this marker". -/
def endsWith (s t : List Char) : Bool := t.isSuffixOf s

/-- Modelled from the spec: `string::startsWith` (the class is not under
src/), "if it starts with". -/
def startsWith (s t : List Char) : Bool := t.isPrefixOf s

/-- Modelled from the spec: `string::substring(from)` (the class is not under
src/), "everything after" the first `n` characters. -/
def substring (s : List Char) (n : Nat) : List Char := s.drop n

/-- The C `isspace` set: space, `\t`, `\n`, `\v`, `\f`, `\r`. -/
def isspace (c : Char) : Bool :=
  c = ' ' || c = '\t' || c = '\n' || c = Char.ofNat 11 || c = Char.ofNat 12 || c = '\r'

/-- Modelled from the spec: `string::trim()` (the class is not under src/),
"trim surrounding whitespace". -/
def trim (s : List Char) : List Char :=
  ((s.dropWhile isspace).reverse.dropWhile isspace).reverse

/-- Modelled from the spec: `string::c_str()` (the class is not under src/):
the characters seen by `printf("%s")`, which stops at the first NUL. -/
def c_str (s : List Char) : List Char := s.takeWhile (fun c => c != Char.ofNat 0)

/-! ## The environment's operations -/

/-- Modelled from the spec: `millis()` (not under src/), the Monotonic Clock
`nowMillis()`, read as an `unsigned long`. -/
def millis (w : World) : Nat × World :=
  (w.clock w.clockCalls % ULONG_MODULUS, { w with clockCalls := w.clockCalls + 1 })

/-- The call `_serialPort->printf(...)` once the format is expanded to `s`. -/
def printf (s : List Char) (w : World) : World :=
  { w with written := w.written ++ s }

/-- The call `_serialPort->readable()`: a poll that finds nothing is used up; one
that finds a byte leaves it for the `getc()` that follows. -/
def readable (w : World) : Int × World :=
  match w.serialIn w.polls with
  | none => (0, { w with polls := w.polls + 1 })
  | some _ => (1, w)

/-- The call `_serialPort->getc()`.  The source calls it only right after
`readable()` returned `1`; with nothing to read it is given the value NUL
here and the poll is used up. -/
def getc (w : World) : Char × World :=
  match w.serialIn w.polls with
  | some c => (c, { w with polls := w.polls + 1, consumed := w.consumed ++ [c] })
  | none => (Char.ofNat 0, { w with polls := w.polls + 1 })

/-- The statement shared by the four classification loops:
`if (_serialPort->readable() == 1) buffer.concat(char(_serialPort->getc()));` -/
def growBuffer (buffer : List Char) (w : World) : List Char × World :=
  let r := readable w
  if r.1 = 1 then
    let g := getc r.2
    (concat buffer g.1, g.2)
  else (buffer, r.2)

/-- The local `string EOL = string("\n\r")` of every operation. -/
def EOL : List Char := ['\n', '\r']

/-! ## The operations of `bc127.cpp` -/

/-- The loop of `knownStart`, with the locals `buffer` and `startTime`. -/
def knownStartLoop : Nat → List Char → Nat → World → Option (opResult × World)
  | 0, _, _, _ => none
  | fuel + 1, buffer, startTime, w =>
    if endsWith buffer EOL != true then
      let r := readable w
      let s : List Char × Nat × World :=
        if r.1 = 1 then
          let g := getc r.2
          let t := millis g.2
          (concat buffer g.1, t.1, t.2)
        else (buffer, startTime, r.2)
      let now := millis s.2.2
      if (s.2.1 + 1000) % ULONG_MODULUS < now.1 then some (TIMEOUT_ERROR, now.2)
      else knownStartLoop fuel s.1 s.2.1 now.2
    else if startsWith buffer ['E', 'R', 'R'] then some (SUCCESS, w)
    else some (SUCCESS, w)

/-- `BC127::knownStart`. -/
def knownStart (fuel : Nat) (w : World) : Option (opResult × World) :=
  let w1 := printf ['\r'] w
  let startTime := millis w1
  knownStartLoop fuel [] startTime.1 startTime.2

/-- The timeout loop of `stdCmd`. -/
def stdCmdLoop : Nat → List Char → Nat → World → Option (opResult × World)
  | 0, _, _, _ => none
  | fuel + 1, buffer, startTime, w =>
    let now := millis w
    if (startTime + 3000) % ULONG_MODULUS > now.1 then
      let g := growBuffer buffer now.2
      if endsWith g.1 EOL then
        if startsWith g.1 ['E', 'R'] then some (MODULE_ERROR, g.2)
        else if startsWith g.1 ['O', 'K'] then some (SUCCESS, g.2)
        else stdCmdLoop fuel [] startTime g.2
      else stdCmdLoop fuel g.1 startTime g.2
    else some (TIMEOUT_ERROR, now.2)

/-- `BC127::stdCmd`.  The result of `knownStart` is dropped; the command is
written only once `knownStart` has returned. -/
def stdCmd (fuel : Nat) (command : List Char) (w : World) : Option (opResult × World) :=
  match knownStart fuel w with
  | none => none
  | some k =>
    let w1 := printf (c_str command ++ ['\r']) k.2
    let startTime := millis w1
    stdCmdLoop fuel [] startTime.1 startTime.2

/-- The timeout loop of `stdSetParam`. -/
def stdSetParamLoop : Nat → List Char → Nat → World → Option (opResult × World)
  | 0, _, _, _ => none
  | fuel + 1, buffer, startTime, w =>
    let now := millis w
    if (startTime + 2000) % ULONG_MODULUS > now.1 then
      let g := growBuffer buffer now.2
      if endsWith g.1 EOL then
        if startsWith g.1 ['E', 'R'] then some (MODULE_ERROR, g.2)
        else if startsWith g.1 ['O', 'K'] then some (SUCCESS, g.2)
        else stdSetParamLoop fuel [] startTime g.2
      else stdSetParamLoop fuel g.1 startTime g.2
    else some (TIMEOUT_ERROR, now.2)

/-- `BC127::stdSetParam`. -/
def stdSetParam (fuel : Nat) (command param : List Char) (w : World) :
    Option (opResult × World) :=
  match knownStart fuel w with
  | none => none
  | some k =>
    let w1 := printf (['S', 'E', 'T', ' '] ++ c_str command ++ ['='] ++ c_str param ++ ['\r']) k.2
    let startTime := millis w1
    stdSetParamLoop fuel [] startTime.1 startTime.2

/-- The timeout loop of `stdGetParam`; `param` is the string `*param`. -/
def stdGetParamLoop (command : List Char) :
    Nat → List Char → List Char → Nat → World → Option (opResult × List Char × World)
  | 0, _, _, _, _ => none
  | fuel + 1, buffer, param, loopStart, w =>
    let now := millis w
    if (loopStart + 2000) % ULONG_MODULUS > now.1 then
      let g := growBuffer buffer now.2
      if endsWith g.1 EOL then
        if startsWith g.1 ['E', 'R'] then some (MODULE_ERROR, param, g.2)
        else if startsWith g.1 ['O', 'K'] then some (SUCCESS, param, g.2)
        else if startsWith g.1 command then
          stdGetParamLoop command fuel [] (trim (substring g.1 (command.length + 1))) loopStart g.2
        else stdGetParamLoop command fuel [] param loopStart g.2
      else stdGetParamLoop command fuel g.1 param loopStart g.2
    else some (TIMEOUT_ERROR, param, now.2)

/-- `BC127::stdGetParam`; the second component of the result is `*param` on
return. -/
def stdGetParam (fuel : Nat) (command param : List Char) (w : World) :
    Option (opResult × List Char × World) :=
  match knownStart fuel w with
  | none => none
  | some k =>
    let w1 := printf (['G', 'E', 'T', ' '] ++ c_str command ++ ['\r']) k.2
    let loopStart := millis w1
    stdGetParamLoop command fuel [] param loopStart.1 loopStart.2

/-- The timeout loop of `reset`. -/
def resetLoop : Nat → List Char → Nat → World → Option (opResult × World)
  | 0, _, _, _ => none
  | fuel + 1, buffer, resetStart, w =>
    let now := millis w
    if (resetStart + 2000) % ULONG_MODULUS > now.1 then
      let g := growBuffer buffer now.2
      if endsWith g.1 EOL then
        if startsWith g.1 ['E', 'R'] then some (MODULE_ERROR, g.2)
        else if startsWith g.1 ['R', 'e'] then some (SUCCESS, g.2)
        else resetLoop fuel [] resetStart g.2
      else resetLoop fuel g.1 resetStart g.2
    else some (TIMEOUT_ERROR, now.2)

/-- `BC127::reset`. -/
def reset (fuel : Nat) (w : World) : Option (opResult × World) :=
  match knownStart fuel w with
  | none => none
  | some k =>
    let w1 := printf ['R', 'E', 'S', 'E', 'T', '\r'] k.2
    let resetStart := millis w1
    resetLoop fuel [] resetStart.1 resetStart.2

/-- `BC127::addressQuery`. -/
def addressQuery (fuel : Nat) (address : List Char) (w : World) :
    Option (opResult × List Char × World) :=
  stdGetParam fuel ['L', 'O', 'C', 'A', 'L', '_', 'A', 'D', 'D', 'R'] address w

/-- `BC127::setBaudRate`.  The `switch` assigns the numeral to the local
`speed`, but the value handed to `stdSetParam` is `stringSpeed`, a name that
neither the function nor the class declares; it is a parameter here. -/
def setBaudRate (fuel : Nat) (newSpeed : baudRates) (stringSpeed : List Char) (w : World) :
    Option (opResult × World) :=
  let speed : Option (List Char) :=
    if newSpeed = s9600bps then some ['9', '6', '0', '0']
    else if newSpeed = s19200bps then some ['1', '9', '2', '0', '0']
    else if newSpeed = s38400bps then some ['3', '8', '4', '0', '0']
    else if newSpeed = s57600bps then some ['5', '7', '6', '0', '0']
    else if newSpeed = s115200bps then some ['1', '1', '5', '2', '0', '0']
    else none
  match speed with
  | none => some (INVALID_PARAM, w)
  | some _ => stdSetParam fuel ['B', 'A', 'U', 'D'] stringSpeed w

/-! ## The classification loop, once

The four timeout loops of `stdCmd`, `stdSetParam`, `stdGetParam` and `reset`
differ only in the deadline, in the prefix that means success and in whether a
line that starts with the queried name is captured.  `lineLoop` is that loop
with the three as parameters; each source loop is shown equal to an instance
of it, and the properties of the loops are proved once, on `lineLoop`. -/

/-- The capture branch of `stdGetParam` (`name = some command`); the other
loops (`name = none`) have no such branch and leave `param` alone. -/
def capture (name : Option (List Char)) (line param : List Char) : List Char :=
  match name with
  | some command =>
    if startsWith line command then trim (substring line (command.length + 1)) else param
  | none => param

/-- The timeout loop of the four operations with its deadline, its success
prefix and its captured name as parameters. -/
def lineLoop (deadline : Nat) (ok : List Char) (name : Option (List Char)) :
    Nat → List Char → List Char → Nat → World → Option (opResult × List Char × World)
  | 0, _, _, _, _ => none
  | fuel + 1, buffer, param, startTime, w =>
    let now := millis w
    if (startTime + deadline) % ULONG_MODULUS > now.1 then
      let g := growBuffer buffer now.2
      if endsWith g.1 EOL then
        if startsWith g.1 ['E', 'R'] then some (MODULE_ERROR, param, g.2)
        else if startsWith g.1 ok then some (SUCCESS, param, g.2)
        else lineLoop deadline ok name fuel [] (capture name g.1 param) startTime g.2
      else lineLoop deadline ok name fuel g.1 param startTime g.2
    else some (TIMEOUT_ERROR, param, now.2)

/-- Where the classification stands after some received bytes: still looping
with a line buffer and a parameter value, or returned with `rest` not read. -/
inductive Progress where
  | running (buffer param : List Char)
  | returned (r : opResult) (param rest : List Char)

/-- The classification of `lineLoop` alone, run on a list of received bytes:
the body of the loop without clock and port. -/
def classify (ok : List Char) (name : Option (List Char)) :
    List Char → List Char → List Char → Progress
  | buffer, param, [] => Progress.running buffer param
  | buffer, param, c :: cs =>
    if endsWith (concat buffer c) EOL then
      if startsWith (concat buffer c) ['E', 'R'] then Progress.returned MODULE_ERROR param cs
      else if startsWith (concat buffer c) ok then Progress.returned SUCCESS param cs
      else classify ok name [] (capture name (concat buffer c) param) cs
    else classify ok name (concat buffer c) param cs

/-- The four operations that run a classification loop. -/
inductive Operation where
  | cmd (command : List Char)
  | setParam (command param : List Char)
  | getParam (command : List Char)
  | reset

/-- The deadline of an operation's loop, in milliseconds. -/
def Operation.deadline : Operation → Nat
  | Operation.cmd _ => 3000
  | _ => 2000

/-- The prefix that an operation's loop classifies as success. -/
def Operation.okMark : Operation → List Char
  | Operation.reset => ['R', 'e']
  | _ => ['O', 'K']

/-- The name whose lines an operation's loop captures, if it captures. -/
def Operation.captured : Operation → Option (List Char)
  | Operation.getParam command => some command
  | _ => none

/-- The bytes an operation writes after the resync probe. -/
def Operation.line : Operation → List Char
  | Operation.cmd command => c_str command ++ ['\r']
  | Operation.setParam command param =>
    ['S', 'E', 'T', ' '] ++ c_str command ++ ['='] ++ c_str param ++ ['\r']
  | Operation.getParam command => ['G', 'E', 'T', ' '] ++ c_str command ++ ['\r']
  | Operation.reset => ['R', 'E', 'S', 'E', 'T', '\r']

/-- Runs the source function of an operation; `param` is the caller's output
string, which only `stdGetParam` can change. -/
def Operation.run (op : Operation) (fuel : Nat) (param : List Char) (w : World) :
    Option (opResult × List Char × World) :=
  match op with
  | Operation.cmd command => (stdCmd fuel command w).map (fun x => (x.1, param, x.2))
  | Operation.setParam command value =>
    (stdSetParam fuel command value w).map (fun x => (x.1, param, x.2))
  | Operation.getParam command => stdGetParam fuel command param w
  | Operation.reset => (BC127.reset fuel w).map (fun x => (x.1, param, x.2))

/-! ## The loop of `stdCmd` with another deadline -/

/-- The timeout loop of `stdCmd` with its constant 3000 replaced by the
parameter `deadline`: the loop `stdSetParam` is compared with, "the same loop
and classification as 4.2" with another deadline. -/
def stdCmdLoopWith (deadline : Nat) : Nat → List Char → Nat → World → Option (opResult × World)
  | 0, _, _, _ => none
  | fuel + 1, buffer, startTime, w =>
    let now := millis w
    if (startTime + deadline) % ULONG_MODULUS > now.1 then
      let g := growBuffer buffer now.2
      if endsWith g.1 EOL then
        if startsWith g.1 ['E', 'R'] then some (MODULE_ERROR, g.2)
        else if startsWith g.1 ['O', 'K'] then some (SUCCESS, g.2)
        else stdCmdLoopWith deadline fuel [] startTime g.2
      else stdCmdLoopWith deadline fuel g.1 startTime g.2
    else some (TIMEOUT_ERROR, now.2)

/-! ## Views of the environment -/

/-- The value of the `i`-th call of `millis()` from now on. -/
def rdg (w : World) (i : Nat) : Nat := w.clock (w.clockCalls + i) % ULONG_MODULUS

/-- The outcome of the `i`-th poll of the port from now on. -/
def rxv (w : World) (i : Nat) : Option Char := w.serialIn (w.polls + i)

/-- The bytes that `n` polls deliver, starting at poll `p`. -/
def delivered (serialIn : Nat → Option Char) : Nat → Nat → List Char
  | _, 0 => []
  | p, n + 1 =>
    match serialIn p with
    | none => delivered serialIn (p + 1) n
    | some c => c :: delivered serialIn (p + 1) n

/-- The bytes that the next `n` polls deliver. -/
def incoming (w : World) (n : Nat) : List Char := delivered w.serialIn w.polls n

/-- The environment after `ticks` more clock calls and `n` more polls whose
bytes were all read. -/
def after (w : World) (ticks n : Nat) : World :=
  { w with clockCalls := w.clockCalls + ticks, polls := w.polls + n,
           consumed := w.consumed ++ incoming w n }

/-- The parameter value after the complete lines `infos` (given without their
terminator) have been classified in turn, none of them a status line. -/
def captureAll (name : Option (List Char)) (infos : List (List Char)) (param : List Char) :
    List Char :=
  infos.foldl (fun q l => capture name (l ++ EOL) q) param

/-- The line buffer of a classification loop after the poll of one iteration. -/
def grown (b : List Char) (w : World) : List Char :=
  match rxv w 0 with
  | none => b
  | some c => concat b c

/-- The inactivity test `(startTime + 1000) < millis()` of `knownStart` on the
last two clock readings taken: the timestamp of a byte and the reading after
it. -/
def lastTestFired (u : World) : Bool :=
  decide ((u.clock (u.clockCalls - 2) % ULONG_MODULUS + 1000) % ULONG_MODULUS <
    u.clock (u.clockCalls - 1) % ULONG_MODULUS)

/-! ## Concrete environments used to evaluate the operations -/

/-- A port that delivers the bytes of `bytes`, one per poll, and then stays
silent. -/
def feedBytes (bytes : List Char) : Nat → Option Char := fun k => bytes.get? k

/-- A fresh environment whose clock reads `step * k` at the `k`-th call and
whose port delivers `bytes`, one per poll, and then stays silent. -/
def simWorld (step : Nat) (bytes : List Char) : World :=
  { clock := fun k => step * k, clockCalls := 0, serialIn := feedBytes bytes, polls := 0,
    written := [], consumed := [] }

/-- A port that answers the probe with `ERROR` and then delivers `OK`. -/
def okWorld : World := simWorld 100 ['E', 'R', 'R', 'O', 'R', '\n', '\r', 'O', 'K', '\n', '\r']

/-- A port that answers the probe with `ERROR` and the command with `ERXYZ`. -/
def erWorld : World :=
  simWorld 100 ['E', 'R', 'R', 'O', 'R', '\n', '\r', 'E', 'R', 'X', 'Y', 'Z', '\n', '\r']

/-- A port that never delivers a byte, with a clock that advances by 500 ms
per reading. -/
def silentWorld : World := simWorld 500 []

/-- A port that answers the probe with `ERROR` and `RESET` with `OK` and the
banner line `Ready`. -/
def readyWorld : World :=
  simWorld 50 ['E', 'R', 'R', 'O', 'R', '\n', '\r', 'O', 'K', '\n', '\r',
    'R', 'e', 'a', 'd', 'y', '\n', '\r']

/-- A port that answers the probe with `ERROR` and the query with an
informational line, the address line and `OK`. -/
def addrWorld : World :=
  simWorld 10 "ERROR\n\rINFO line\n\rLOCAL_ADDR=AA:BB:CC:DD:EE:FF\n\rOK\n\r".toList

/-- A port that answers the probe with `ERROR` and a query for the name
`A\n\r` with the line `I`, the name, `=1` and `OK`. -/
def splitNameWorld : World := simWorld 10 "ERROR\n\rI\n\rA\n\r=1\n\rOK\n\r".toList

/-- A port that answers the probe with `ERROR` and a query for `N` with the
line `N=5` and `OK`. -/
def shortWorld : World := simWorld 10 "ERROR\n\rN=5\n\rOK\n\r".toList

/-- A port that holds a stale `OK` line and then stays silent. -/
def staleWorld : World := simWorld 100 "OK\n\r".toList

/-- A port that delivers a bare terminator, with a clock that jumps by two
seconds between the timestamp of the second byte and the next reading. -/
def jumpWorld : World :=
  { clock := fun k => if k < 4 then 10 * k else 10 * k + 2000, clockCalls := 0,
    serialIn := feedBytes ['\n', '\r'], polls := 0, written := [], consumed := [] }

/-- A port that delivers a bare terminator, with a clock that is 1002 ms
before the wrap of the 32-bit timestamp. -/
def wrapWorld : World :=
  { clock := fun k => 4294966294 + k, clockCalls := 0,
    serialIn := feedBytes ['\n', '\r'], polls := 0, written := [], consumed := [] }

/-- A silent port whose clock reads 0 when the probe is stamped, then 1000
three times, then 1001. -/
def exactWorld : World :=
  { clock := fun k => if k = 0 then 0 else if k < 4 then 1000 else 1001, clockCalls := 0,
    serialIn := feedBytes [], polls := 0, written := [], consumed := [] }

/-- A port that is silent at the first poll and then has `OK` and the terminator
ready, with a clock that is 500 ms before the wrap of the 32-bit timestamp and
advances by 1 ms per reading. -/
def nearWrapWorld : World :=
  { clock := fun k => 4294966796 + k, clockCalls := 0,
    serialIn := fun k => if k = 0 then none else feedBytes ['O', 'K', '\n', '\r'] (k - 1),
    polls := 0, written := [], consumed := [] }

/-- A port that delivers the end of the line `N=5`, then an empty line, then
`OK`. -/
def valueWorld : World := simWorld 100 "\r\n\rOK\n\r".toList

/-- A port that is silent for three polls and then delivers the byte `x` at
every poll, forever, with a clock that advances by 500 ms per reading. -/
def chatterWorld : World :=
  { clock := fun k => 500 * k, clockCalls := 0,
    serialIn := fun k => if k < 3 then none else some 'x',
    polls := 0, written := [], consumed := [] }

/-- A port that holds a pending `OK` line and then stays silent, with a clock
that advances by 500 ms per reading. -/
def pendingWorld : World := simWorld 500 "OK\n\r".toList

/-- A port that is silent for three polls and then delivers `OK` and the
terminator, with a clock that advances by 500 ms per reading. -/
def lateOkWorld : World :=
  { clock := fun k => 500 * k, clockCalls := 0,
    serialIn := fun k => if k < 3 then none else feedBytes ['O', 'K', '\n', '\r'] (k - 3),
    polls := 0, written := [], consumed := [] }

/-! ## Lemmas on the environment and on the loops -/

theorem endsWith_iff (s t : List Char) : endsWith s t = true ↔ t <:+ s := by
  simp [endsWith]

theorem startsWith_iff (s t : List Char) : startsWith s t = true ↔ t <+: s := by
  simp [startsWith]

theorem delivered_add (f : Nat → Option Char) (m n : Nat) :
    ∀ p, delivered f p (m + n) = delivered f p m ++ delivered f (p + m) n := by
  induction m with
  | zero => intro p; simp [delivered]
  | succ m ih =>
    intro p
    have h : m + 1 + n = (m + n) + 1 := by omega
    rw [h]
    simp only [delivered]
    cases f p with
    | none => simp only []; rw [ih (p + 1)]; congr 2; omega
    | some c => simp only [List.cons_append]; rw [ih (p + 1)]; congr 3; omega

theorem lineLoop_timeout (D : Nat) (ok : List Char) (name : Option (List Char)) (fuel : Nat)
    (b p : List Char) (st : Nat) (w : World) (h : ¬ (st + D) % ULONG_MODULUS > rdg w 0) :
    lineLoop D ok name (fuel + 1) b p st w = some (TIMEOUT_ERROR, p, after w 1 0) := by
  simp only [rdg, Nat.add_zero] at h
  simp [lineLoop, millis, h, after, incoming, delivered]

theorem lineLoop_idle (D : Nat) (ok : List Char) (name : Option (List Char)) (fuel : Nat)
    (b p : List Char) (st : Nat) (w : World) (h : (st + D) % ULONG_MODULUS > rdg w 0)
    (hrx : rxv w 0 = none) (hb : endsWith b EOL = false) :
    lineLoop D ok name (fuel + 1) b p st w = lineLoop D ok name fuel b p st (after w 1 1) := by
  simp only [rdg, rxv, Nat.add_zero] at h hrx
  simp [lineLoop, millis, h, growBuffer, readable, hrx, hb, after, incoming, delivered]

theorem lineLoop_byte (D : Nat) (ok : List Char) (name : Option (List Char)) (fuel : Nat)
    (b p : List Char) (st : Nat) (w : World) (c : Char) (h : (st + D) % ULONG_MODULUS > rdg w 0)
    (hrx : rxv w 0 = some c) :
    lineLoop D ok name (fuel + 1) b p st w =
      if endsWith (concat b c) EOL then
        if startsWith (concat b c) ['E', 'R'] then some (MODULE_ERROR, p, after w 1 1)
        else if startsWith (concat b c) ok then some (SUCCESS, p, after w 1 1)
        else lineLoop D ok name fuel [] (capture name (concat b c) p) st (after w 1 1)
      else lineLoop D ok name fuel (concat b c) p st (after w 1 1) := by
  simp only [rdg, rxv, Nat.add_zero] at h hrx
  simp [lineLoop, millis, h, growBuffer, readable, getc, hrx, after, incoming, delivered]

@[simp] theorem after_zero (w : World) : after w 0 0 = w := by
  cases w; simp [after, incoming, delivered]

@[simp] theorem rdg_after (w : World) (t n i : Nat) : rdg (after w t n) i = rdg w (t + i) := by
  simp [rdg, after, Nat.add_assoc]

@[simp] theorem rxv_after (w : World) (t n i : Nat) : rxv (after w t n) i = rxv w (n + i) := by
  simp [rxv, after, Nat.add_assoc]

theorem incoming_add (w : World) (t m n : Nat) :
    incoming w (m + n) = incoming w m ++ incoming (after w t m) n := by
  simp [incoming, after, delivered_add]

theorem after_after (w : World) (t n t' n' : Nat) :
    after (after w t n) t' n' = after w (t + t') (n + n') := by
  simp [after, incoming, delivered_add, Nat.add_assoc]

theorem incoming_one_none (w : World) (h : rxv w 0 = none) : incoming w 1 = [] := by
  simp only [rxv, Nat.add_zero] at h
  simp [incoming, delivered, h]

theorem incoming_one_some (w : World) (c : Char) (h : rxv w 0 = some c) : incoming w 1 = [c] := by
  simp only [rxv, Nat.add_zero] at h
  simp [incoming, delivered, h]

theorem incoming_succ_none (w : World) (n : Nat) (h : rxv w 0 = none) :
    incoming w (n + 1) = incoming (after w 1 1) n := by
  rw [Nat.add_comm n 1, incoming_add w 1 1 n, incoming_one_none w h]; rfl

theorem incoming_succ_some (w : World) (n : Nat) (c : Char) (h : rxv w 0 = some c) :
    incoming w (n + 1) = c :: incoming (after w 1 1) n := by
  rw [Nat.add_comm n 1, incoming_add w 1 1 n, incoming_one_some w c h]; rfl

theorem incoming_last_ne_nil (w : World) (n : Nat) (h : rxv w n ≠ none) :
    incoming w (n + 1) ≠ [] := by
  rw [incoming_add w n n 1]
  cases hc : rxv w n with
  | none => exact absurd hc h
  | some c =>
    have : rxv (after w n n) 0 = some c := by simpa using hc
    rw [incoming_one_some _ c this]; simp

theorem endsWith_nil_EOL : endsWith [] EOL = false := by decide

theorem lineLoop_running (D : Nat) (ok : List Char) (name : Option (List Char)) (st : Nat) :
    ∀ (n fuel : Nat) (b p : List Char) (w : World) (b' p' : List Char),
      endsWith b EOL = false →
      (∀ i, i < n → (st + D) % ULONG_MODULUS > rdg w i) →
      classify ok name b p (incoming w n) = Progress.running b' p' →
      lineLoop D ok name (n + fuel) b p st w = lineLoop D ok name fuel b' p' st (after w n n) := by
  intro n
  induction n with
  | zero =>
    intro fuel b p w b' p' _ _ hc
    simp [incoming, delivered, classify] at hc
    simp [hc.1, hc.2]
  | succ n ih =>
    intro fuel b p w b' p' hb hcl hc
    have h0 : (st + D) % ULONG_MODULUS > rdg w 0 := hcl 0 (by omega)
    have hcl' : ∀ i, i < n → (st + D) % ULONG_MODULUS > rdg (after w 1 1) i := by
      intro i hi; rw [rdg_after]; exact hcl (1 + i) (by omega)
    have hf : n + 1 + fuel = (n + fuel) + 1 := by omega
    have haft : after (after w 1 1) n n = after w (n + 1) (n + 1) := by
      rw [after_after, Nat.add_comm 1 n]
    rw [hf]
    cases hrx : rxv w 0 with
    | none =>
      rw [incoming_succ_none w n hrx] at hc
      rw [lineLoop_idle D ok name _ b p st w h0 hrx hb, ih fuel b p _ b' p' hb hcl' hc, haft]
    | some c =>
      rw [incoming_succ_some w n c hrx] at hc
      rw [lineLoop_byte D ok name _ b p st w c h0 hrx]
      simp only [classify] at hc
      by_cases he : endsWith (concat b c) EOL = true
      · rw [if_pos he] at hc ⊢
        by_cases h1 : startsWith (concat b c) ['E', 'R'] = true
        · rw [if_pos h1] at hc; cases hc
        · rw [if_neg h1] at hc ⊢
          by_cases h2 : startsWith (concat b c) ok = true
          · rw [if_pos h2] at hc; cases hc
          · rw [if_neg h2] at hc ⊢
            rw [ih fuel [] _ _ b' p' endsWith_nil_EOL hcl' hc, haft]
      · rw [if_neg he] at hc ⊢
        rw [ih fuel _ p _ b' p' (by simpa using he) hcl' hc, haft]

theorem classify_append (ok : List Char) (name : Option (List Char)) (s t : List Char) :
    ∀ b p, classify ok name b p (s ++ t) =
      match classify ok name b p s with
      | Progress.running b1 p1 => classify ok name b1 p1 t
      | Progress.returned r p1 rest => Progress.returned r p1 (rest ++ t) := by
  induction s with
  | nil => intro b p; simp [classify]
  | cons c s ih =>
    intro b p
    simp only [List.cons_append, classify]
    split
    · split
      · rfl
      · split
        · rfl
        · exact ih _ _
    · exact ih _ _

theorem lineLoop_returned (D : Nat) (ok : List Char) (name : Option (List Char)) (st : Nat)
    (n fuel : Nat) (b p : List Char) (w : World) (r : opResult) (p' : List Char)
    (hb : endsWith b EOL = false)
    (hcl : ∀ i, i < n + 1 → (st + D) % ULONG_MODULUS > rdg w i)
    (hlast : rxv w n ≠ none)
    (hc : classify ok name b p (incoming w (n + 1)) = Progress.returned r p' []) :
    lineLoop D ok name (n + 1 + fuel) b p st w = some (r, p', after w (n + 1) (n + 1)) := by
  cases hx : rxv w n with
  | none => exact absurd hx hlast
  | some c =>
    have hx' : rxv (after w n n) 0 = some c := by simpa using hx
    rw [incoming_add w n n 1, incoming_one_some _ c hx', classify_append] at hc
    cases h1 : classify ok name b p (incoming w n) with
    | returned r1 p1 rest => rw [h1] at hc; simp at hc
    | running b1 p1 =>
      rw [h1] at hc
      have hrun := lineLoop_running D ok name st n (1 + fuel) b p w b1 p1 hb
        (fun i hi => hcl i (by omega)) h1
      have hn : (st + D) % ULONG_MODULUS > rdg (after w n n) 0 := by
        rw [rdg_after]; exact hcl (n + 0) (by omega)
      rw [Nat.add_assoc, hrun, Nat.add_comm 1 fuel,
        lineLoop_byte D ok name fuel b1 p1 st _ c hn hx', after_after]
      simp only [classify] at hc
      by_cases he : endsWith (concat b1 c) EOL = true
      · rw [if_pos he] at hc ⊢
        by_cases h2 : startsWith (concat b1 c) ['E', 'R'] = true
        · rw [if_pos h2] at hc ⊢
          cases hc; rfl
        · rw [if_neg h2] at hc ⊢
          by_cases h3 : startsWith (concat b1 c) ok = true
          · rw [if_pos h3] at hc ⊢
            cases hc; rfl
          · rw [if_neg h3] at hc; cases hc
      · rw [if_neg he] at hc; cases hc

theorem lineLoop_deadline (D : Nat) (ok : List Char) (name : Option (List Char)) (st : Nat)
    (n fuel : Nat) (b p : List Char) (w : World) (b' p' : List Char)
    (hb : endsWith b EOL = false)
    (hcl : ∀ i, i < n → (st + D) % ULONG_MODULUS > rdg w i)
    (hend : ¬ (st + D) % ULONG_MODULUS > rdg w n)
    (hc : classify ok name b p (incoming w n) = Progress.running b' p') :
    lineLoop D ok name (n + 1 + fuel) b p st w = some (TIMEOUT_ERROR, p', after w (n + 1) n) := by
  have hn : ¬ (st + D) % ULONG_MODULUS > rdg (after w n n) 0 := by
    rw [rdg_after]; exact hend
  rw [Nat.add_assoc, lineLoop_running D ok name st n (1 + fuel) b p w b' p' hb hcl hc,
    Nat.add_comm 1 fuel, lineLoop_timeout D ok name fuel b' p' st _ hn, after_after]
  rfl

theorem lineLoop_pending (D : Nat) (ok : List Char) (name : Option (List Char)) (st : Nat)
    (n m : Nat) (b p : List Char) (w : World) (b' p' : List Char)
    (hb : endsWith b EOL = false)
    (hcl : ∀ i, i < n → (st + D) % ULONG_MODULUS > rdg w i)
    (hc : classify ok name b p (incoming w n) = Progress.running b' p') (hm : m ≤ n) :
    lineLoop D ok name m b p st w = none := by
  obtain ⟨k, rfl⟩ := Nat.exists_eq_add_of_le hm
  rw [incoming_add w m m k, classify_append] at hc
  cases h1 : classify ok name b p (incoming w m) with
  | returned r1 p1 rest => rw [h1] at hc; simp at hc
  | running b1 p1 =>
    have := lineLoop_running D ok name st m 0 b p w b1 p1 hb (fun i hi => hcl i (by omega)) h1
    simpa [lineLoop] using this

theorem no_EOL_snoc (body : List Char) (c : Char) (hc : c ≠ '\r') (h : ¬ EOL <:+: body) :
    ¬ EOL <:+: body ++ [c] := by
  rw [List.infix_concat_iff]
  rintro (hs | hi)
  · rw [List.suffix_concat_iff] at hs
    rcases hs with hs | ⟨t, ht, _⟩
    · simp [EOL] at hs
    · have : t = ['\n'] ∧ c = '\r' := by
        have h2 : EOL = ['\n'] ++ ['\r'] := rfl
        rw [h2] at ht
        have := List.append_inj' ht (by simp)
        exact ⟨this.1.symm, by simpa using this.2.symm⟩
      exact hc this.2
  · exact h hi

theorem classify_quiet (ok : List Char) (name : Option (List Char)) (s : List Char) :
    ∀ b p, ¬ EOL <:+: b ++ s → classify ok name b p s = Progress.running (b ++ s) p := by
  induction s with
  | nil => intro b p _; simp [classify]
  | cons c s ih =>
    intro b p h
    have he : endsWith (concat b c) EOL = false := by
      rw [Bool.eq_false_iff]
      intro hh
      rw [endsWith_iff] at hh
      apply h
      have h1 : b ++ c :: s = concat b c ++ s := by simp [concat]
      rw [h1]
      exact List.IsInfix.trans hh.isInfix (List.prefix_append _ _).isInfix
    simp only [classify, he]
    have := ih (concat b c) p (by simpa [concat] using h)
    simpa [concat] using this

/-- one complete status line, read from an empty buffer -/
theorem classify_status (ok : List Char) (name : Option (List Char)) (body more p : List Char)
    (hbody : ¬ EOL <:+: body) :
    classify ok name [] p (body ++ EOL ++ more) =
      if startsWith (body ++ EOL) ['E', 'R'] then Progress.returned MODULE_ERROR p more
      else if startsWith (body ++ EOL) ok then Progress.returned SUCCESS p more
      else classify ok name [] (capture name (body ++ EOL) p) more := by
  have e : body ++ EOL ++ more = (body ++ ['\n']) ++ ('\r' :: more) := by simp [EOL]
  have e2 : concat (body ++ ['\n']) '\r' = body ++ EOL := by simp [concat, EOL]
  have he : endsWith (body ++ EOL) EOL = true := by rw [endsWith_iff]; exact List.suffix_append _ _
  rw [e, classify_append, classify_quiet ok name (body ++ ['\n']) [] p
    (by simpa using no_EOL_snoc body '\n' (by decide) hbody)]
  simp only [List.nil_append, classify, e2, he]
  simp

theorem startsWith_line (a b : Char) (ha : a ≠ '\n') (hb : b ≠ '\n') (l : List Char) :
    startsWith (l ++ EOL) [a, b] = startsWith l [a, b] := by
  match l with
  | [] => simp [startsWith, EOL, List.isPrefixOf, ha]
  | [x] => simp [startsWith, EOL, List.isPrefixOf, hb]
  | x :: y :: l => simp [startsWith, List.isPrefixOf]

theorem startsWith_line_ER (l : List Char) :
    startsWith (l ++ EOL) ['E', 'R'] = startsWith l ['E', 'R'] :=
  startsWith_line 'E' 'R' (by decide) (by decide) l

theorem startsWith_line_okMark (op : Operation) (l : List Char) :
    startsWith (l ++ EOL) op.okMark = startsWith l op.okMark := by
  cases op <;> exact startsWith_line _ _ (by decide) (by decide) l

theorem classify_lines (ok : List Char) (name : Option (List Char)) (more : List Char) :
    ∀ (infos : List (List Char)) (p : List Char),
      (∀ l, l ∈ infos → ¬ EOL <:+: l ∧ startsWith (l ++ EOL) ['E', 'R'] = false ∧
        startsWith (l ++ EOL) ok = false) →
      classify ok name [] p ((infos.map (fun l => l ++ EOL)).flatten ++ more) =
        classify ok name [] (captureAll name infos p) more := by
  intro infos
  induction infos with
  | nil => intro p _; simp [captureAll]
  | cons l infos ih =>
    intro p h
    obtain ⟨h0, h1, h2⟩ := h l (List.mem_cons_self _ _)
    have e : ((l :: infos).map (fun l => l ++ EOL)).flatten ++ more =
        l ++ EOL ++ ((infos.map (fun l => l ++ EOL)).flatten ++ more) := by simp
    rw [e, classify_status ok name l _ p h0, h1, h2]
    simp only [Bool.false_eq_true, if_false]
    rw [ih _ (fun l hl => h l (List.mem_cons_of_mem _ hl))]
    rfl

theorem capture_none (line param : List Char) : capture none line param = param := rfl

theorem stdCmdLoop_eq (p : List Char) :
    ∀ (fuel : Nat) (b : List Char) (st : Nat) (w : World),
      stdCmdLoop fuel b st w =
        (lineLoop 3000 ['O', 'K'] none fuel b p st w).map (fun x => (x.1, x.2.2)) := by
  intro fuel
  induction fuel with
  | zero => intro b st w; rfl
  | succ fuel ih =>
    intro b st w
    simp only [stdCmdLoop, lineLoop, capture_none]
    split
    · split
      · split
        · rfl
        · split
          · rfl
          · exact ih _ _ _
      · exact ih _ _ _
    · rfl

theorem stdSetParamLoop_eq (p : List Char) :
    ∀ (fuel : Nat) (b : List Char) (st : Nat) (w : World),
      stdSetParamLoop fuel b st w =
        (lineLoop 2000 ['O', 'K'] none fuel b p st w).map (fun x => (x.1, x.2.2)) := by
  intro fuel
  induction fuel with
  | zero => intro b st w; rfl
  | succ fuel ih =>
    intro b st w
    simp only [stdSetParamLoop, lineLoop, capture_none]
    split
    · split
      · split
        · rfl
        · split
          · rfl
          · exact ih _ _ _
      · exact ih _ _ _
    · rfl

theorem resetLoop_eq (p : List Char) :
    ∀ (fuel : Nat) (b : List Char) (st : Nat) (w : World),
      resetLoop fuel b st w =
        (lineLoop 2000 ['R', 'e'] none fuel b p st w).map (fun x => (x.1, x.2.2)) := by
  intro fuel
  induction fuel with
  | zero => intro b st w; rfl
  | succ fuel ih =>
    intro b st w
    simp only [resetLoop, lineLoop, capture_none]
    split
    · split
      · split
        · rfl
        · split
          · rfl
          · exact ih _ _ _
      · exact ih _ _ _
    · rfl

theorem stdGetParamLoop_eq (command : List Char) :
    ∀ (fuel : Nat) (b p : List Char) (st : Nat) (w : World),
      stdGetParamLoop command fuel b p st w =
        lineLoop 2000 ['O', 'K'] (some command) fuel b p st w := by
  intro fuel
  induction fuel with
  | zero => intro b p st w; rfl
  | succ fuel ih =>
    intro b p st w
    simp only [stdGetParamLoop, lineLoop, capture]
    split
    · split
      · split
        · rfl
        · split
          · rfl
          · split
            · exact ih _ _ _ _
            · exact ih _ _ _ _
      · exact ih _ _ _ _
    · rfl

theorem lineLoop_param_none (D : Nat) (ok : List Char) :
    ∀ (fuel : Nat) (b p : List Char) (st : Nat) (w : World) (x : opResult × List Char × World),
      lineLoop D ok none fuel b p st w = some x → x.2.1 = p := by
  intro fuel
  induction fuel with
  | zero => intro b p st w x h; simp [lineLoop] at h
  | succ fuel ih =>
    intro b p st w x h
    simp only [lineLoop, capture_none] at h
    split at h
    · split at h
      · split at h
        · cases h; rfl
        · split at h
          · cases h; rfl
          · exact ih _ _ _ _ _ h
      · exact ih _ _ _ _ _ h
    · cases h; rfl

theorem millis_eq (w : World) : millis w = (rdg w 0, after w 1 0) := by
  cases w; simp [millis, rdg, after, incoming, delivered]

theorem rdg_printf (s : List Char) (w : World) (i : Nat) : rdg (printf s w) i = rdg w i := rfl

theorem map_param (param : List Char) (o : Option (opResult × List Char × World))
    (h : ∀ x, o = some x → x.2.1 = param) :
    (o.map (fun x => (x.1, x.2.2))).map (fun x => (x.1, param, x.2)) = o := by
  cases o with
  | none => rfl
  | some x =>
    obtain ⟨r, q, u⟩ := x
    have := h _ rfl
    simp only at this
    simp [this]

/-- every operation is `knownStart`, the write of its line, a timestamp and `lineLoop` -/
theorem run_eq (op : Operation) (fuel : Nat) (param : List Char) (w : World) :
    op.run fuel param w =
      match knownStart fuel w with
      | none => none
      | some k =>
        lineLoop op.deadline op.okMark op.captured fuel [] param (rdg k.2 0)
          (after (printf op.line k.2) 1 0) := by
  cases op with
  | cmd command =>
    simp only [Operation.run, stdCmd]
    cases hk : knownStart fuel w with
    | none => rfl
    | some k =>
      simp only [millis_eq, stdCmdLoop_eq param, Operation.deadline, Operation.okMark,
        Operation.captured, Operation.line, Option.map_some', rdg_printf]
      exact map_param param _ (fun x hx => lineLoop_param_none _ _ _ _ _ _ _ x hx)
  | setParam command value =>
    simp only [Operation.run, stdSetParam]
    cases hk : knownStart fuel w with
    | none => rfl
    | some k =>
      simp only [millis_eq, stdSetParamLoop_eq param, Operation.deadline, Operation.okMark,
        Operation.captured, Operation.line, Option.map_some', rdg_printf]
      exact map_param param _ (fun x hx => lineLoop_param_none _ _ _ _ _ _ _ x hx)
  | getParam command =>
    simp only [Operation.run, stdGetParam]
    cases hk : knownStart fuel w with
    | none => rfl
    | some k =>
      simp only [millis_eq, stdGetParamLoop_eq, Operation.deadline, Operation.okMark,
        Operation.captured, Operation.line, rdg_printf]
  | reset =>
    simp only [Operation.run, BC127.reset]
    cases hk : knownStart fuel w with
    | none => rfl
    | some k =>
      simp only [millis_eq, resetLoop_eq param, Operation.deadline, Operation.okMark,
        Operation.captured, Operation.line, Option.map_some', rdg_printf]
      exact map_param param _ (fun x hx => lineLoop_param_none _ _ _ _ _ _ _ x hx)

theorem knownStartLoop_exit (fuel : Nat) (b : List Char) (st : Nat) (w : World)
    (hb : endsWith b EOL = true) : knownStartLoop (fuel + 1) b st w = some (SUCCESS, w) := by
  simp [knownStartLoop, hb]

theorem knownStartLoop_idle (fuel : Nat) (b : List Char) (st : Nat) (w : World)
    (hb : endsWith b EOL = false) (hrx : rxv w 0 = none) :
    knownStartLoop (fuel + 1) b st w =
      if (st + 1000) % ULONG_MODULUS < rdg w 0 then some (TIMEOUT_ERROR, after w 1 1)
      else knownStartLoop fuel b st (after w 1 1) := by
  simp only [rxv, Nat.add_zero] at hrx
  simp [knownStartLoop, hb, readable, hrx, millis, rdg, after, incoming, delivered]

theorem knownStartLoop_byte (fuel : Nat) (b : List Char) (st : Nat) (w : World) (c : Char)
    (hb : endsWith b EOL = false) (hrx : rxv w 0 = some c) :
    knownStartLoop (fuel + 1) b st w =
      if (rdg w 0 + 1000) % ULONG_MODULUS < rdg w 1 then some (TIMEOUT_ERROR, after w 2 1)
      else knownStartLoop fuel (concat b c) (rdg w 0) (after w 2 1) := by
  simp only [rxv, Nat.add_zero] at hrx
  simp [knownStartLoop, hb, readable, getc, hrx, millis, rdg, after, incoming, delivered]

theorem knownStartLoop_mono :
    ∀ (fuel k : Nat) (b : List Char) (st : Nat) (w : World) (x : opResult × World),
      knownStartLoop fuel b st w = some x → knownStartLoop (fuel + k) b st w = some x := by
  intro fuel
  induction fuel with
  | zero => intro k b st w x h; simp [knownStartLoop] at h
  | succ fuel ih =>
    intro k b st w x h
    have e : fuel + 1 + k = (fuel + k) + 1 := by omega
    rw [e]
    cases hb : endsWith b EOL with
    | true => rw [knownStartLoop_exit _ b st w hb] at h ⊢; exact h
    | false =>
      cases hrx : rxv w 0 with
      | none =>
        rw [knownStartLoop_idle _ b st w hb hrx] at h ⊢
        split
        · rename_i ht; rw [if_pos ht] at h; exact h
        · rename_i ht; rw [if_neg ht] at h; exact ih _ _ _ _ _ h
      | some c =>
        rw [knownStartLoop_byte _ b st w c hb hrx] at h ⊢
        split
        · rename_i ht; rw [if_pos ht] at h; exact h
        · rename_i ht; rw [if_neg ht] at h; exact ih _ _ _ _ _ h

theorem knownStart_mono (f0 fuel : Nat) (w : World) (x : opResult × World)
    (h : knownStart f0 w = some x) (hf : f0 ≤ fuel) : knownStart fuel w = some x := by
  obtain ⟨k, rfl⟩ := Nat.exists_eq_add_of_le hf
  exact knownStartLoop_mono _ _ _ _ _ _ h

theorem incoming_written (s : List Char) (w : World) (t m : Nat) :
    incoming (after (printf s w) t 0) m = incoming w m := by
  simp [incoming, after, printf]

theorem rxv_written (s : List Char) (w : World) (t i : Nat) :
    rxv (after (printf s w) t 0) i = rxv w i := by
  simp [rxv, after, printf]

theorem rdg_written (s : List Char) (w : World) (t i : Nat) :
    rdg (after (printf s w) t 0) i = rdg w (t + i) := by
  simp [rdg, after, printf, Nat.add_assoc]

theorem run_status (op : Operation) (w w1 : World) (r0 : opResult) (f0 : Nat)
    (hk : knownStart f0 w = some (r0, w1)) (infos : List (List Char)) (fin : List Char)
    (n : Nat) (param : List Char)
    (hinfos : ∀ l, l ∈ infos → ¬ EOL <:+: l ∧ startsWith l ['E', 'R'] = false ∧
      startsWith l op.okMark = false)
    (hfin : ¬ EOL <:+: fin)
    (hstat : startsWith fin ['E', 'R'] = true ∨ startsWith fin op.okMark = true)
    (hin : incoming w1 (n + 1) = (infos.map (fun l => l ++ EOL)).flatten ++ (fin ++ EOL))
    (hlast : rxv w1 n ≠ none)
    (hcl : ∀ i, i ≤ n → (rdg w1 0 + op.deadline) % ULONG_MODULUS > rdg w1 (i + 1))
    (fuel : Nat) (hf0 : f0 ≤ fuel) (hfn : n + 1 ≤ fuel) :
    op.run fuel param w =
      some (if startsWith fin ['E', 'R'] then MODULE_ERROR else SUCCESS,
        captureAll op.captured infos param, after (printf op.line w1) (n + 2) (n + 1)) := by
  rw [run_eq, knownStart_mono f0 fuel w _ hk hf0]
  simp only
  obtain ⟨k, rfl⟩ := Nat.exists_eq_add_of_le hfn
  have hc : classify op.okMark op.captured [] param
      (incoming (after (printf op.line w1) 1 0) (n + 1)) =
      Progress.returned (if startsWith fin ['E', 'R'] then MODULE_ERROR else SUCCESS)
        (captureAll op.captured infos param) [] := by
    rw [incoming_written, hin, classify_lines _ _ _ infos param
      (fun l hl => ⟨(hinfos l hl).1, by rw [startsWith_line_ER]; exact (hinfos l hl).2.1,
        by rw [startsWith_line_okMark]; exact (hinfos l hl).2.2⟩)]
    have := classify_status op.okMark op.captured fin [] (captureAll op.captured infos param) hfin
    rw [List.append_nil] at this
    rw [this, startsWith_line_ER, startsWith_line_okMark]
    rcases hstat with h | h
    · simp [h]
    · by_cases h' : startsWith fin ['E', 'R'] = true <;> simp [h, h']
  rw [lineLoop_returned op.deadline op.okMark op.captured (rdg w1 0) n k [] param _ _ _
    endsWith_nil_EOL
    (fun i hi => by rw [rdg_written, Nat.add_comm 1 i]; exact hcl i (by omega))
    (by rw [rxv_written]; exact hlast) hc, after_after]
  have e1 : 1 + (n + 1) = n + 2 := by omega
  have e2 : 0 + (n + 1) = n + 1 := by omega
  rw [e1, e2]

theorem run_deadline (op : Operation) (w w1 : World) (r0 : opResult) (f0 : Nat)
    (hk : knownStart f0 w = some (r0, w1)) (infos : List (List Char)) (part : List Char)
    (n : Nat) (param : List Char)
    (hinfos : ∀ l, l ∈ infos → ¬ EOL <:+: l ∧ startsWith l ['E', 'R'] = false ∧
      startsWith l op.okMark = false)
    (hpart : ¬ EOL <:+: part)
    (hin : incoming w1 n = (infos.map (fun l => l ++ EOL)).flatten ++ part)
    (hcl : ∀ i, i < n → (rdg w1 0 + op.deadline) % ULONG_MODULUS > rdg w1 (i + 1))
    (hend : ¬ (rdg w1 0 + op.deadline) % ULONG_MODULUS > rdg w1 (n + 1)) :
    (∀ fuel, f0 ≤ fuel → n + 1 ≤ fuel →
      op.run fuel param w =
        some (TIMEOUT_ERROR, captureAll op.captured infos param,
          after (printf op.line w1) (n + 2) n)) ∧
    (∀ fuel, fuel ≤ n → op.run fuel param w = none) := by
  have hc : classify op.okMark op.captured [] param
      (incoming (after (printf op.line w1) 1 0) n) =
      Progress.running part (captureAll op.captured infos param) := by
    rw [incoming_written, hin, classify_lines _ _ _ infos param
      (fun l hl => ⟨(hinfos l hl).1, by rw [startsWith_line_ER]; exact (hinfos l hl).2.1,
        by rw [startsWith_line_okMark]; exact (hinfos l hl).2.2⟩)]
    simpa using classify_quiet op.okMark op.captured part [] _ (by simpa using hpart)
  have hcl' : ∀ i, i < n → (rdg w1 0 + op.deadline) % ULONG_MODULUS >
      rdg (after (printf op.line w1) 1 0) i := by
    intro i hi; rw [rdg_written, Nat.add_comm 1 i]; exact hcl i hi
  constructor
  · intro fuel hf0 hfn
    rw [run_eq, knownStart_mono f0 fuel w _ hk hf0]
    simp only
    obtain ⟨k, rfl⟩ := Nat.exists_eq_add_of_le hfn
    rw [lineLoop_deadline op.deadline op.okMark op.captured (rdg w1 0) n k [] param _ _ _
      endsWith_nil_EOL hcl' (by rw [rdg_written, Nat.add_comm 1 n]; exact hend) hc, after_after]
    have e1 : 1 + (n + 1) = n + 2 := by omega
    have e2 : 0 + n = n := by omega
    rw [e1, e2]
  · intro fuel hfn
    rw [run_eq]
    cases hk' : knownStart fuel w with
    | none => rfl
    | some x =>
      have hx : x = (r0, w1) := by
        rcases Nat.le_total fuel f0 with h | h
        · have := knownStart_mono fuel f0 w x hk' h
          rw [hk] at this; exact (Option.some.inj this).symm
        · have := knownStart_mono f0 fuel w _ hk h
          rw [hk'] at this; exact Option.some.inj this
      subst hx
      simp only
      exact lineLoop_pending op.deadline op.okMark op.captured (rdg w1 0) n fuel [] param _ _ _
        endsWith_nil_EOL hcl' hc hfn

theorem no_EOL_cons (c : Char) (l : List Char) (hc : c ≠ '\n') (h : ¬ EOL <:+: l) :
    ¬ EOL <:+: c :: l := by
  rw [List.infix_cons_iff]
  rintro (hp | hi)
  · have : EOL = '\n' :: ['\r'] := rfl
    rw [this, List.cons_prefix_cons] at hp
    exact hc hp.1.symm
  · exact h hi

theorem map_world_eq (param : List Char) (o : Option (opResult × World)) (r : opResult)
    (q : List Char) (u : World) (h : o.map (fun x => (x.1, param, x.2)) = some (r, q, u)) :
    o = some (r, u) := by
  cases o with
  | none => simp at h
  | some x =>
    obtain ⟨a, b⟩ := x
    simp only [Option.map_some', Option.some.injEq, Prod.mk.injEq] at h
    rw [h.1, h.2.2]

theorem map_world_none (param : List Char) (o : Option (opResult × World))
    (h : o.map (fun x => (x.1, param, x.2)) = none) : o = none := by
  cases o with
  | none => rfl
  | some x => simp at h

theorem knownStartLoop_written :
    ∀ (fuel : Nat) (b : List Char) (st : Nat) (w : World) (x : opResult × World),
      knownStartLoop fuel b st w = some x → x.2.written = w.written := by
  intro fuel
  induction fuel with
  | zero => intro b st w x h; simp [knownStartLoop] at h
  | succ fuel ih =>
    intro b st w x h
    cases hb : endsWith b EOL with
    | true =>
      rw [knownStartLoop_exit _ b st w hb] at h
      cases h; rfl
    | false =>
      cases hrx : rxv w 0 with
      | none =>
        rw [knownStartLoop_idle _ b st w hb hrx] at h
        split at h
        · cases h; rfl
        · exact (ih _ _ _ _ h).trans rfl
      | some c =>
        rw [knownStartLoop_byte _ b st w c hb hrx] at h
        split at h
        · cases h; rfl
        · exact (ih _ _ _ _ h).trans rfl

theorem knownStart_written (fuel : Nat) (w : World) (x : opResult × World)
    (h : knownStart fuel w = some x) : x.2.written = w.written ++ ['\r'] :=
  knownStartLoop_written _ _ _ _ _ h

theorem lineLoop_step (D : Nat) (ok : List Char) (name : Option (List Char)) (fuel : Nat)
    (b p : List Char) (st : Nat) (w : World) (h : (st + D) % ULONG_MODULUS > rdg w 0) :
    lineLoop D ok name (fuel + 1) b p st w =
      if endsWith (grown b w) EOL then
        if startsWith (grown b w) ['E', 'R'] then some (MODULE_ERROR, p, after w 1 1)
        else if startsWith (grown b w) ok then some (SUCCESS, p, after w 1 1)
        else lineLoop D ok name fuel [] (capture name (grown b w) p) st (after w 1 1)
      else lineLoop D ok name fuel (grown b w) p st (after w 1 1) := by
  cases hrx : rxv w 0 with
  | none =>
    simp only [grown, hrx]
    simp only [rdg, rxv, Nat.add_zero] at h hrx
    simp [lineLoop, millis, h, growBuffer, readable, hrx, after, incoming, delivered]
  | some c =>
    simp only [grown, hrx]
    exact lineLoop_byte D ok name fuel b p st w c h hrx

theorem lineLoop_written (D : Nat) (ok : List Char) (name : Option (List Char)) :
    ∀ (fuel : Nat) (b p : List Char) (st : Nat) (w : World) (x : opResult × List Char × World),
      lineLoop D ok name fuel b p st w = some x → x.2.2.written = w.written := by
  intro fuel
  induction fuel with
  | zero => intro b p st w x h; simp [lineLoop] at h
  | succ fuel ih =>
    intro b p st w x h
    by_cases hd : (st + D) % ULONG_MODULUS > rdg w 0
    · rw [lineLoop_step D ok name fuel b p st w hd] at h
      split at h
      · split at h
        · cases h; rfl
        · split at h
          · cases h; rfl
          · exact (ih _ _ _ _ _ h).trans rfl
      · exact (ih _ _ _ _ _ h).trans rfl
    · rw [lineLoop_timeout D ok name fuel b p st w hd] at h
      cases h; rfl

theorem run_written (op : Operation) (fuel : Nat) (param : List Char) (w : World)
    (x : opResult × List Char × World) (h : op.run fuel param w = some x) :
    x.2.2.written = w.written ++ ['\r'] ++ op.line := by
  rw [run_eq] at h
  cases hk : knownStart fuel w with
  | none => rw [hk] at h; simp at h
  | some k =>
    rw [hk] at h
    simp only at h
    rw [lineLoop_written _ _ _ _ _ _ _ _ _ h]
    simp [after, printf, knownStart_written fuel w k hk]

theorem dropWhile_append_all (p : Char → Bool) (a b : List Char) (ha : ∀ c, c ∈ a → p c = true) :
    (a ++ b).dropWhile p = b.dropWhile p := by
  induction a with
  | nil => rfl
  | cons x a ih =>
    have hx : p x = true := ha x (List.mem_cons_self _ _)
    simp only [List.cons_append, List.dropWhile_cons, hx, if_true]
    exact ih (fun c hc => ha c (List.mem_cons_of_mem _ hc))

theorem trim_append_space (ws : List Char) (hws : ∀ c, c ∈ ws → isspace c = true) :
    ∀ v : List Char, trim (v ++ ws) = trim v := by
  intro v
  induction v with
  | nil =>
    have : ([] ++ ws).dropWhile isspace = [] := by
      rw [dropWhile_append_all isspace [] ws (by simp)]
      simpa using dropWhile_append_all isspace ws [] hws
    simp only [List.nil_append] at this
    simp [trim, this]
  | cons x v ih =>
    by_cases hx : isspace x = true
    · have e1 : trim (x :: v ++ ws) = trim (v ++ ws) := by
        simp [trim, List.dropWhile_cons, hx]
      have e2 : trim (x :: v) = trim v := by
        simp [trim, List.dropWhile_cons, hx]
      rw [e1, e2, ih]
    · have e1 : (x :: v ++ ws).dropWhile isspace = x :: v ++ ws := by
        simp [List.dropWhile_cons, hx]
      have e2 : (x :: v).dropWhile isspace = x :: v := by
        simp [List.dropWhile_cons, hx]
      unfold trim
      rw [e1, e2, List.reverse_append,
        dropWhile_append_all isspace ws.reverse _ (fun c hc => hws c (List.mem_reverse.mp hc))]

theorem trim_append_EOL (v : List Char) : trim (v ++ EOL) = trim v :=
  trim_append_space EOL (by decide) v

theorem no_EOL_append_sep (c : Char) (hn : c ≠ '\n') (hr : c ≠ '\r') (b : List Char)
    (hb : ¬ EOL <:+: b) : ∀ a : List Char, ¬ EOL <:+: a → ¬ EOL <:+: a ++ c :: b := by
  intro a
  induction a with
  | nil => intro _; exact no_EOL_cons c b hn hb
  | cons x a ih =>
    intro ha
    have ha' : ¬ EOL <:+: a := fun h => ha (List.infix_cons h)
    rw [List.cons_append, List.infix_cons_iff]
    rintro (hp | hi)
    · have e : EOL = '\n' :: ['\r'] := rfl
      rw [e, List.cons_prefix_cons] at hp
      obtain ⟨hx, hp⟩ := hp
      cases a with
      | nil =>
        rw [List.nil_append, List.cons_prefix_cons] at hp
        exact hr hp.1.symm
      | cons y a =>
        rw [List.cons_append, List.cons_prefix_cons] at hp
        apply ha
        rw [e, ← hx, ← hp.1]
        exact (List.prefix_append ['\n', '\r'] a).isInfix
    · exact ih ha' hi

theorem startsWith_sep (a b c : Char) (ha : a ≠ c) (hb : b ≠ c) (v : List Char) :
    ∀ command : List Char, startsWith command [a, b] = false →
      startsWith (command ++ c :: v) [a, b] = false := by
  intro command h
  match command with
  | [] => simp [startsWith, List.isPrefixOf, ha]
  | [x] => simp [startsWith, List.isPrefixOf, hb]
  | x :: y :: l => simpa [startsWith, List.isPrefixOf] using h

theorem capture_name_line (command value p : List Char) :
    capture (some command) (command ++ '=' :: value ++ EOL) p = trim value := by
  have h1 : startsWith (command ++ '=' :: value ++ EOL) command = true := by
    rw [startsWith_iff, List.append_assoc]; exact List.prefix_append _ _
  have h2 : substring (command ++ '=' :: value ++ EOL) (command.length + 1) = value ++ EOL := by
    simp [substring, List.append_assoc, List.drop_append]
  simp only [capture, h1, h2, if_true, trim_append_EOL]

theorem no_EOL_not_endsWith (b : List Char) (h : ¬ EOL <:+: b) : endsWith b EOL = false := by
  rw [Bool.eq_false_iff]
  intro hh
  rw [endsWith_iff] at hh
  exact h hh.isInfix

theorem line_of_endsWith (b : List Char) (c : Char) (hb : ¬ EOL <:+: b)
    (he : endsWith (concat b c) EOL = true) :
    ∃ body, concat b c = body ++ EOL ∧ ¬ EOL <:+: body := by
  rw [endsWith_iff] at he
  obtain ⟨body, hbody⟩ := he
  refine ⟨body, hbody.symm, ?_⟩
  intro hi
  apply hb
  have e : body ++ EOL = (body ++ ['\n']) ++ ['\r'] := by simp [EOL]
  rw [e, concat] at hbody
  have := (List.append_inj' hbody rfl).1
  rw [← this]
  exact List.IsInfix.trans hi (List.prefix_append _ _).isInfix

theorem no_EOL_concat (b : List Char) (c : Char) (hb : ¬ EOL <:+: b)
    (he : ¬ endsWith (concat b c) EOL = true) : ¬ EOL <:+: concat b c := by
  rw [endsWith_iff] at he
  rw [concat, List.infix_concat_iff]
  rintro (h | h)
  · exact he h
  · exact hb h

theorem consumed_after_none (w : World) (h : rxv w 0 = none) :
    (after w 1 1).consumed = w.consumed := by
  simp [after, incoming_one_none w h]

theorem consumed_after_some (w : World) (c : Char) (h : rxv w 0 = some c) :
    (after w 1 1).consumed = w.consumed ++ [c] := by
  simp [after, incoming_one_some w c h]

/-- What a returned classification loop has read: complete lines that were no
status lines, each captured in turn, and then the status line (for `SUCCESS`
and `MODULE_ERROR`) or an unterminated rest (for `TIMEOUT_ERROR`). -/
theorem lineLoop_sound (D : Nat) (ok : List Char) (name : Option (List Char)) :
    ∀ (fuel : Nat) (b p : List Char) (st : Nat) (w : World) (r : opResult) (q : List Char)
      (u : World),
      ¬ EOL <:+: b → lineLoop D ok name fuel b p st w = some (r, q, u) →
      ∃ (bytes : List Char) (lines : List (List Char)) (tail : List Char),
        u.consumed = w.consumed ++ bytes ∧
        b ++ bytes = (lines.map (fun l => l ++ EOL)).flatten ++ tail ∧
        (∀ l, l ∈ lines → ¬ EOL <:+: l ∧ startsWith (l ++ EOL) ['E', 'R'] = false ∧
          startsWith (l ++ EOL) ok = false) ∧
        q = captureAll name lines p ∧
        (r = SUCCESS ∨ r = MODULE_ERROR ∨ r = TIMEOUT_ERROR) ∧
        (r = SUCCESS → (∃ fin, tail = fin ++ EOL ∧ ¬ EOL <:+: fin) ∧
          startsWith tail ['E', 'R'] = false ∧ startsWith tail ok = true) ∧
        (r = MODULE_ERROR → (∃ fin, tail = fin ++ EOL ∧ ¬ EOL <:+: fin) ∧
          startsWith tail ['E', 'R'] = true) ∧
        (r = TIMEOUT_ERROR → ¬ EOL <:+: tail) := by
  intro fuel
  induction fuel with
  | zero => intro b p st w r q u _ h; simp [lineLoop] at h
  | succ fuel ih =>
    intro b p st w r q u hb h
    by_cases hd : (st + D) % ULONG_MODULUS > rdg w 0
    · cases hrx : rxv w 0 with
      | none =>
        rw [lineLoop_idle D ok name fuel b p st w hd hrx (no_EOL_not_endsWith b hb)] at h
        obtain ⟨bytes, lines, tail, h1, h2⟩ := ih b p st _ r q u hb h
        rw [consumed_after_none w hrx] at h1
        exact ⟨bytes, lines, tail, h1, h2⟩
      | some c =>
        rw [lineLoop_byte D ok name fuel b p st w c hd hrx] at h
        by_cases he : endsWith (concat b c) EOL = true
        · rw [if_pos he] at h
          obtain ⟨body, hbody, hnb⟩ := line_of_endsWith b c hb he
          by_cases h1 : startsWith (concat b c) ['E', 'R'] = true
          · rw [if_pos h1] at h
            simp only [Option.some.injEq, Prod.mk.injEq] at h
            obtain ⟨rfl, rfl, rfl⟩ := h
            refine ⟨[c], [], concat b c, consumed_after_some w c hrx, by simp [concat],
              by simp, rfl, by simp, by simp, ?_, by simp⟩
            intro _
            exact ⟨⟨body, hbody, hnb⟩, h1⟩
          · rw [if_neg h1] at h
            by_cases h2 : startsWith (concat b c) ok = true
            · rw [if_pos h2] at h
              simp only [Option.some.injEq, Prod.mk.injEq] at h
              obtain ⟨rfl, rfl, rfl⟩ := h
              refine ⟨[c], [], concat b c, consumed_after_some w c hrx, by simp [concat],
                by simp, rfl, by simp, ?_, by simp, by simp⟩
              intro _
              exact ⟨⟨body, hbody, hnb⟩, by simpa using h1, h2⟩
            · rw [if_neg h2] at h
              obtain ⟨bytes, lines, tail, e1, e2, e3, e4, e5⟩ :=
                ih [] _ st _ r q u (by decide) h
              rw [consumed_after_some w c hrx] at e1
              refine ⟨c :: bytes, body :: lines, tail, by rw [e1]; simp, ?_, ?_, ?_, e5⟩
              · have : b ++ c :: bytes = concat b c ++ bytes := by simp [concat]
                rw [this, hbody]
                simp only [List.nil_append] at e2
                rw [e2]; simp
              · intro l hl
                rcases List.mem_cons.mp hl with rfl | hl
                · rw [← hbody]
                  exact ⟨hnb, by simpa using h1, by simpa using h2⟩
                · exact e3 l hl
              · rw [e4, hbody]; rfl
        · rw [if_neg he] at h
          obtain ⟨bytes, lines, tail, e1, e2, e3⟩ :=
            ih (concat b c) p st _ r q u (no_EOL_concat b c hb he) h
          rw [consumed_after_some w c hrx] at e1
          refine ⟨c :: bytes, lines, tail, by rw [e1]; simp, ?_, e3⟩
          rw [← e2]; simp [concat]
    · rw [lineLoop_timeout D ok name fuel b p st w hd] at h
      simp only [Option.some.injEq, Prod.mk.injEq] at h
      obtain ⟨rfl, rfl, rfl⟩ := h
      exact ⟨[], [], b, by simp [after, incoming, delivered], by simp, by simp, rfl, by simp,
        by simp, by simp, fun _ => hb⟩

theorem captureAll_cases (command : List Char) :
    ∀ (lines : List (List Char)) (p : List Char),
      ((∀ l, l ∈ lines → startsWith (l ++ EOL) command = false) ∧
        captureAll (some command) lines p = p) ∨
      (∃ l, l ∈ lines ∧ startsWith (l ++ EOL) command = true ∧
        captureAll (some command) lines p = trim (substring (l ++ EOL) (command.length + 1))) := by
  intro lines
  induction lines with
  | nil => intro p; left; exact ⟨by simp, rfl⟩
  | cons l lines ih =>
    intro p
    have e : captureAll (some command) (l :: lines) p =
        captureAll (some command) lines (capture (some command) (l ++ EOL) p) := rfl
    rcases ih (capture (some command) (l ++ EOL) p) with ⟨h1, h2⟩ | ⟨m, hm, h1, h2⟩
    · by_cases hl : startsWith (l ++ EOL) command = true
      · right
        refine ⟨l, List.mem_cons_self _ _, hl, ?_⟩
        rw [e, h2]; simp [capture, hl]
      · left
        refine ⟨?_, ?_⟩
        · intro m hm
          rcases List.mem_cons.mp hm with rfl | hm
          · simpa using hl
          · exact h1 m hm
        · rw [e, h2]; simp [capture, hl]
    · right
      exact ⟨m, List.mem_cons_of_mem _ hm, h1, by rw [e, h2]⟩

theorem lastTestFired_after (w : World) (n : Nat) :
    lastTestFired (after w 2 n) = decide ((rdg w 0 + 1000) % ULONG_MODULUS < rdg w 1) := by
  simp [lastTestFired, after, rdg]

theorem incoming_after_ticks (w : World) (t t' n m : Nat) :
    incoming (after w t n) m = incoming (after w t' n) m := by
  simp [incoming, after]

theorem polls_after (w : World) (t n : Nat) : (after w t n).polls = w.polls + n := rfl

theorem knownStartLoop_sound :
    ∀ (fuel : Nat) (b : List Char) (st : Nat) (w : World) (r : opResult) (u : World),
      knownStartLoop fuel b st w = some (r, u) →
      ∃ k : Nat, u.polls = w.polls + k ∧ u.consumed = w.consumed ++ incoming w k ∧
        (r = SUCCESS ∨ r = TIMEOUT_ERROR) ∧
        (∀ t, t <+: incoming w k → t ≠ incoming w k → endsWith (b ++ t) EOL = false) ∧
        (r = SUCCESS → endsWith (b ++ incoming w k) EOL = true) ∧
        (r = SUCCESS → endsWith b EOL = false → lastTestFired u = false) ∧
        (r = TIMEOUT_ERROR → endsWith (b ++ incoming w k) EOL = true → lastTestFired u = true) := by
  intro fuel
  induction fuel with
  | zero => intro b st w r u h; simp [knownStartLoop] at h
  | succ fuel ih =>
    intro b st w r u h
    cases hb : endsWith b EOL with
    | true =>
      rw [knownStartLoop_exit _ b st w hb] at h
      simp only [Option.some.injEq, Prod.mk.injEq] at h
      obtain ⟨rfl, rfl⟩ := h
      refine ⟨0, rfl, by simp [incoming, delivered], Or.inl rfl, ?_, ?_, ?_, ?_⟩
      · intro t ht hne
        simp only [incoming, delivered, List.prefix_nil] at ht hne
        exact absurd ht hne
      · intro _; simpa [incoming, delivered] using hb
      · intro _ h2; simp at h2
      · intro h1; simp at h1
    | false =>
      cases hrx : rxv w 0 with
      | none =>
        rw [knownStartLoop_idle _ b st w hb hrx] at h
        by_cases hf : (st + 1000) % ULONG_MODULUS < rdg w 0
        · rw [if_pos hf] at h
          simp only [Option.some.injEq, Prod.mk.injEq] at h
          obtain ⟨rfl, rfl⟩ := h
          have e : incoming w 1 = [] := incoming_one_none w hrx
          refine ⟨1, rfl, rfl, Or.inr rfl, ?_, ?_, ?_, ?_⟩
          · intro t ht hne
            rw [e] at ht hne
            simp only [List.prefix_nil] at ht
            exact absurd ht hne
          · intro h1; simp at h1
          · intro h1; simp at h1
          · intro _ h2
            rw [e, List.append_nil, hb] at h2
            simp at h2
        · rw [if_neg hf] at h
          obtain ⟨k, e1, e2, e3, e4, e5, e6, e7⟩ := ih b st _ r u h
          have ei : incoming w (k + 1) = incoming (after w 1 1) k := incoming_succ_none w k hrx
          refine ⟨k + 1, ?_, ?_, e3, ?_, ?_, fun h1 _ => e6 h1 hb, ?_⟩
          · rw [e1, polls_after]; omega
          · rw [e2, ei, consumed_after_none w hrx]
          · rw [ei]; exact e4
          · rw [ei]; exact e5
          · rw [ei]; exact e7
      | some c =>
        rw [knownStartLoop_byte _ b st w c hb hrx] at h
        by_cases hf : (rdg w 0 + 1000) % ULONG_MODULUS < rdg w 1
        · rw [if_pos hf] at h
          simp only [Option.some.injEq, Prod.mk.injEq] at h
          obtain ⟨rfl, rfl⟩ := h
          have e : incoming w 1 = [c] := incoming_one_some w c hrx
          refine ⟨1, rfl, ?_, Or.inr rfl, ?_, ?_, ?_, ?_⟩
          · simp [after]
          · intro t ht hne
            rw [e] at ht hne
            have : t = [] := by
              rcases List.prefix_cons_iff.mp ht with h0 | ⟨t', rfl, ht'⟩
              · exact h0
              · simp only [List.prefix_nil] at ht'
                subst ht'
                exact absurd rfl hne
            rw [this, List.append_nil]; exact hb
          · intro h1; simp at h1
          · intro h1; simp at h1
          · intro _ _
            rw [lastTestFired_after]; simpa using hf
        · rw [if_neg hf] at h
          have ei : incoming w (0 + 1) = [c] := incoming_one_some w c hrx
          obtain ⟨k, e1, e2, e3, e4, e5, e6, e7⟩ := ih (concat b c) (rdg w 0) _ r u h
          have ei : incoming w (k + 1) = c :: incoming (after w 2 1) k := by
            rw [incoming_succ_some w k c hrx, incoming_after_ticks w 1 2 1 k]
          have ec : (after w 2 1).consumed = w.consumed ++ [c] := by
            simp [after, incoming_one_some w c hrx]
          have ea : ∀ t : List Char, b ++ c :: t = concat b c ++ t := by
            intro t; simp [concat]
          refine ⟨k + 1, ?_, ?_, e3, ?_, ?_, ?_, ?_⟩
          · rw [e1, polls_after]; omega
          · rw [e2, ei, ec]; simp
          · intro t ht hne
            rw [ei] at ht hne
            rcases List.prefix_cons_iff.mp ht with h0 | ⟨t', rfl, ht'⟩
            · rw [h0, List.append_nil]; exact hb
            · rw [ea]
              exact e4 t' ht' (fun hh => hne (by rw [hh]))
          · intro h1; rw [ei, ea]; exact e5 h1
          · intro h1 _
            cases hbc : endsWith (concat b c) EOL with
            | false => exact e6 h1 hbc
            | true =>
              cases fuel with
              | zero => simp [knownStartLoop] at h
              | succ fuel =>
                rw [knownStartLoop_exit _ _ _ _ hbc] at h
                simp only [Option.some.injEq, Prod.mk.injEq] at h
                rw [← h.2, lastTestFired_after]; simpa using hf
          · intro h1 h2
            rw [ei, ea] at h2
            cases hbc : endsWith (concat b c) EOL with
            | false => exact e7 h1 h2
            | true =>
              cases fuel with
              | zero => simp [knownStartLoop] at h
              | succ fuel =>
                rw [knownStartLoop_exit _ _ _ _ hbc] at h
                simp only [Option.some.injEq, Prod.mk.injEq] at h
                rw [h1] at h
                exact absurd h.1 (by decide)

theorem knownStartLoop_flush (lo : Nat) (hlo : lo + 2000 < ULONG_MODULUS) :
    ∀ (n fuel : Nat) (b : List Char) (st : Nat) (w : World),
      endsWith b EOL = false →
      (∀ t, t <+: incoming w (n + 1) → t ≠ incoming w (n + 1) → endsWith (b ++ t) EOL = false) →
      endsWith (b ++ incoming w (n + 1)) EOL = true →
      rxv w n ≠ none →
      (lo ≤ st ∧ st ≤ lo + 1000) →
      (∀ j, j ≤ 2 * n + 1 → lo ≤ rdg w j ∧ rdg w j ≤ lo + 1000) →
      knownStartLoop (n + 2 + fuel) b st w =
        some (SUCCESS, after w (n + 1 + (incoming w (n + 1)).length) (n + 1)) := by
  intro n
  induction n with
  | zero =>
    intro fuel b st w hb _ hend hlast _ hwin
    cases hrx : rxv w 0 with
    | none => exact absurd hrx hlast
    | some c =>
      have e : incoming w (0 + 1) = [c] := incoming_one_some w c hrx
      have h0 := hwin 0 (by omega)
      have h1 := hwin 1 (by omega)
      have hnf : ¬ (rdg w 0 + 1000) % ULONG_MODULUS < rdg w 1 := by
        rw [Nat.mod_eq_of_lt (by omega)]; omega
      have ef : 0 + 2 + fuel = (fuel + 1) + 1 := by omega
      rw [ef, knownStartLoop_byte _ b st w c hb hrx, if_neg hnf]
      rw [e] at hend ⊢
      rw [knownStartLoop_exit _ _ _ _ (by simpa [concat] using hend)]
      rfl
  | succ n ih =>
    intro fuel b st w hb hpre hend hlast hst hwin
    have ef : n + 1 + 2 + fuel = (n + 2 + fuel) + 1 := by omega
    rw [ef]
    cases hrx : rxv w 0 with
    | none =>
      have ei : incoming w (n + 1 + 1) = incoming (after w 1 1) (n + 1) :=
        incoming_succ_none w (n + 1) hrx
      have h0 := hwin 0 (by omega)
      have hnf : ¬ (st + 1000) % ULONG_MODULUS < rdg w 0 := by
        rw [Nat.mod_eq_of_lt (by omega)]; omega
      rw [knownStartLoop_idle _ b st w hb hrx, if_neg hnf]
      rw [ei] at hpre hend ⊢
      rw [ih fuel b st (after w 1 1) hb hpre hend
        (by rw [rxv_after, Nat.add_comm]; exact hlast) hst
        (fun j hj => by rw [rdg_after]; exact hwin (1 + j) (by omega)), after_after]
      congr 3 <;> omega
    | some c =>
      have ei : incoming w (n + 1 + 1) = c :: incoming (after w 2 1) (n + 1) := by
        rw [incoming_succ_some w (n + 1) c hrx, incoming_after_ticks w 1 2 1 (n + 1)]
      have hlast' : rxv (after w 2 1) n ≠ none := by
        rw [rxv_after, Nat.add_comm]; exact hlast
      have h0 := hwin 0 (by omega)
      have h1 := hwin 1 (by omega)
      have hnf : ¬ (rdg w 0 + 1000) % ULONG_MODULUS < rdg w 1 := by
        rw [Nat.mod_eq_of_lt (by omega)]; omega
      have ea : ∀ t : List Char, b ++ c :: t = concat b c ++ t := by
        intro t; simp [concat]
      rw [knownStartLoop_byte _ b st w c hb hrx, if_neg hnf]
      rw [ei] at hpre hend ⊢
      have hbc : endsWith (concat b c) EOL = false := by
        have := hpre [c] (by simp) (by
          intro hh
          have := incoming_last_ne_nil (after w 2 1) n hlast'
          simp only [List.cons.injEq, true_and] at hh
          exact this hh.symm)
        simpa [concat] using this
      rw [ih fuel (concat b c) (rdg w 0) (after w 2 1) hbc
        (fun t ht hne => by
          rw [← ea]
          exact hpre (c :: t) (by simpa using ht) (by simpa using hne))
        (by rw [← ea]; exact hend) hlast' h0
        (fun j hj => by rw [rdg_after]; exact hwin (2 + j) (by omega)), after_after]
      congr 3
      · simp only [List.length_cons]; omega
      · omega

theorem knownStart_eq (fuel : Nat) (w : World) :
    knownStart fuel w = knownStartLoop fuel [] (rdg w 0) (after (printf ['\r'] w) 1 0) := by
  simp only [knownStart, millis_eq, rdg_printf]

theorem no_EOL_dropLast_of_prefixes (l : List Char)
    (h : ∀ t, t <+: l → t ≠ l → ¬ EOL <:+ t) : ¬ EOL <:+: l.dropLast := by
  rintro ⟨s, t, hst⟩
  have hp : s ++ EOL <+: l :=
    List.IsPrefix.trans ⟨t, hst⟩ (List.dropLast_prefix l)
  have hlen : (s ++ EOL).length ≤ l.dropLast.length := by
    rw [← hst]; simp
  refine h (s ++ EOL) hp ?_ (List.suffix_append s EOL)
  intro hh
  rw [hh, List.length_dropLast] at hlen
  have : 0 < l.length := by rw [← hh]; simp [EOL]
  omega

theorem prefixes_of_no_EOL_dropLast (l : List Char) (h : ¬ EOL <:+: l.dropLast) :
    ∀ t, t <+: l → t ≠ l → ¬ EOL <:+ t := by
  rintro t ⟨s, rfl⟩ hne hs
  have hs' : s ≠ [] := by
    intro hh; apply hne; simp [hh]
  rw [List.dropLast_append_of_ne_nil t hs'] at h
  exact h (List.IsInfix.trans hs.isInfix (List.prefix_append _ _).isInfix)

theorem knownStartLoop_silence :
    ∀ (m : Nat) (b : List Char) (st : Nat) (u : World),
      endsWith b EOL = false →
      (∀ i, i ≤ m → rxv u i = none) →
      st + 1000 < ULONG_MODULUS →
      (∀ i, i < m → rdg u i ≤ st + 1000) →
      st + 1000 < rdg u m →
      (∀ fuel, m + 1 ≤ fuel →
        knownStartLoop fuel b st u = some (TIMEOUT_ERROR, after u (m + 1) (m + 1))) ∧
      (∀ fuel, fuel ≤ m → knownStartLoop fuel b st u = none) := by
  intro m
  induction m with
  | zero =>
    intro b st u hb hs hov _ hlate
    have hrx := hs 0 (by omega)
    constructor
    · intro fuel hf
      obtain ⟨f, rfl⟩ := Nat.exists_eq_add_of_le hf
      have e : 0 + 1 + f = f + 1 := by omega
      rw [e, knownStartLoop_idle _ b st u hb hrx, Nat.mod_eq_of_lt hov, if_pos hlate]
    · intro fuel hf
      have : fuel = 0 := by omega
      subst this; rfl
  | succ m ih =>
    intro b st u hb hs hov hearly hlate
    have hrx := hs 0 (by omega)
    have hnf : ¬ (st + 1000) % ULONG_MODULUS < rdg u 0 := by
      rw [Nat.mod_eq_of_lt hov]
      have := hearly 0 (by omega)
      omega
    obtain ⟨h1, h2⟩ := ih b st (after u 1 1) hb
      (fun i hi => by rw [rxv_after]; exact hs (1 + i) (by omega)) hov
      (fun i hi => by rw [rdg_after]; exact hearly (1 + i) (by omega))
      (by rw [rdg_after, Nat.add_comm 1 m]; exact hlate)
    constructor
    · intro fuel hf
      obtain ⟨f, rfl⟩ := Nat.exists_eq_add_of_le hf
      have e : m + 1 + 1 + f = (m + 1 + f) + 1 := by omega
      rw [e, knownStartLoop_idle _ b st u hb hrx, if_neg hnf, h1 _ (by omega), after_after]
      congr 3 <;> omega
    · intro fuel hf
      cases fuel with
      | zero => rfl
      | succ f =>
        rw [knownStartLoop_idle _ b st u hb hrx, if_neg hnf]
        exact h2 f (by omega)

theorem c_str_eq_self (s : List Char) (h : ∀ c, c ∈ s → c ≠ Char.ofNat 0) : c_str s = s := by
  unfold c_str
  rw [List.takeWhile_eq_self_iff]
  intro c hc
  simpa using h c hc

theorem incoming_silent : ∀ (k : Nat) (w : World), (∀ i, i < k → rxv w i = none) →
    incoming w k = [] := by
  intro k
  induction k with
  | zero => intro w _; rfl
  | succ k ih =>
    intro w h
    rw [incoming_succ_none w k (h 0 (by omega))]
    exact ih _ (fun i hi => by rw [rxv_after]; exact h (1 + i) (by omega))

theorem knownStartLoop_fixed :
    ∀ (fuel : Nat) (b : List Char) (st : Nat) (w : World) (x : opResult × World),
      knownStartLoop fuel b st w = some x →
      x.2.clock = w.clock ∧ x.2.serialIn = w.serialIn := by
  intro fuel
  induction fuel with
  | zero => intro b st w x h; simp [knownStartLoop] at h
  | succ fuel ih =>
    intro b st w x h
    cases hb : endsWith b EOL with
    | true =>
      rw [knownStartLoop_exit _ b st w hb] at h
      cases h; exact ⟨rfl, rfl⟩
    | false =>
      cases hrx : rxv w 0 with
      | none =>
        rw [knownStartLoop_idle _ b st w hb hrx] at h
        split at h
        · cases h; exact ⟨rfl, rfl⟩
        · have := ih _ _ _ _ h
          exact ⟨this.1, this.2⟩
      | some c =>
        rw [knownStartLoop_byte _ b st w c hb hrx] at h
        split at h
        · cases h; exact ⟨rfl, rfl⟩
        · have := ih _ _ _ _ h
          exact ⟨this.1, this.2⟩

theorem knownStart_silent_sound (fuel : Nat) (w : World) (r : opResult) (u : World)
    (hsilent : ∀ i, rxv w i = none) (h : knownStart fuel w = some (r, u)) :
    r = TIMEOUT_ERROR ∧ u.consumed = w.consumed ∧ u.written = w.written ++ ['\r'] ∧
      (∀ i, rxv u i = none) ∧ u.clock = w.clock ∧ u.serialIn = w.serialIn := by
  have hw := knownStart_written fuel w (r, u) h
  rw [knownStart_eq] at h
  obtain ⟨k, e1, e2, e3, _, e5, _, _⟩ := knownStartLoop_sound _ _ _ _ _ _ h
  have hi : incoming (after (printf ['\r'] w) 1 0) k = [] := by
    rw [incoming_written]; exact incoming_silent k w (fun i _ => hsilent i)
  rw [hi] at e2 e5
  have hfix : u.clock = w.clock ∧ u.serialIn = w.serialIn := knownStartLoop_fixed _ _ _ _ _ h
  refine ⟨?_, ?_, hw, ?_, hfix.1, hfix.2⟩
  · rcases e3 with hr | hr
    · have := e5 hr
      simp [endsWith_nil_EOL] at this
    · exact hr
  · rw [e2]; simp [after, printf, incoming, delivered]
  · intro i
    have := hsilent (k + i)
    simp only [rxv] at this ⊢
    rw [hfix.2, e1]
    simpa [after, printf, Nat.add_assoc] using this

theorem knownStart_silence (w : World) (n : Nat)
    (hsilent : ∀ i, i ≤ n → rxv w i = none)
    (hov : rdg w 0 + 1000 < ULONG_MODULUS)
    (hearly : ∀ i, i < n → rdg w (i + 1) ≤ rdg w 0 + 1000)
    (hlate : rdg w 0 + 1000 < rdg w (n + 1)) (fuel : Nat) (hf : n + 1 ≤ fuel) :
    knownStart fuel w = some (TIMEOUT_ERROR, after (printf ['\r'] w) (n + 2) (n + 1)) := by
  obtain ⟨h1, _⟩ := knownStartLoop_silence n [] (rdg w 0) (after (printf ['\r'] w) 1 0)
    endsWith_nil_EOL (fun i hi => by rw [rxv_written]; exact hsilent i hi) hov
    (fun i hi => by rw [rdg_written, Nat.add_comm 1 i]; exact hearly i hi)
    (by rw [rdg_written, Nat.add_comm 1 n]; exact hlate)
  rw [knownStart_eq, h1 fuel hf, after_after]
  congr 3 <;> omega

theorem rdg_lt (w : World) (i : Nat) : rdg w i < ULONG_MODULUS :=
  Nat.mod_lt _ (by decide)

theorem deadline_bounds (op : Operation) : 0 < op.deadline ∧ op.deadline ≤ 3000 := by
  cases op <;> simp [Operation.deadline]

theorem lineLoop_buffer (D : Nat) (ok : List Char) (name : Option (List Char)) (st : Nat) :
    ∀ (k : Nat) (b p : List Char) (w : World),
      ¬ EOL <:+: b → lineLoop D ok name k b p st w = none →
      ∃ (b' p' : List Char),
        (∀ fuel, lineLoop D ok name (k + fuel) b p st w =
          lineLoop D ok name fuel b' p' st (after w k k)) ∧
        ¬ EOL <:+: b' ∧
        ∃ pre, b ++ incoming w k = pre ++ b' ∧ (pre = [] ∨ EOL <:+ pre) := by
  intro k
  induction k with
  | zero =>
    intro b p w hb _
    exact ⟨b, p, fun fuel => by simp, hb, [], by simp [incoming, delivered], Or.inl rfl⟩
  | succ k ih =>
    intro b p w hb h
    have haft : after (after w 1 1) k k = after w (k + 1) (k + 1) := by
      rw [after_after, Nat.add_comm 1 k]
    have hfuel : ∀ fuel, k + 1 + fuel = (k + fuel) + 1 := fun fuel => by omega
    by_cases hd : (st + D) % ULONG_MODULUS > rdg w 0
    · cases hrx : rxv w 0 with
      | none =>
        have hbe := no_EOL_not_endsWith b hb
        rw [lineLoop_idle D ok name k b p st w hd hrx hbe] at h
        obtain ⟨b', p', e1, e2, pre, e3, e4⟩ := ih b p _ hb h
        refine ⟨b', p', ?_, e2, pre, ?_, e4⟩
        · intro fuel
          rw [hfuel, lineLoop_idle D ok name _ b p st w hd hrx hbe, e1, haft]
        · rw [incoming_succ_none w k hrx]; exact e3
      | some c =>
        rw [lineLoop_byte D ok name k b p st w c hd hrx] at h
        by_cases he : endsWith (concat b c) EOL = true
        · rw [if_pos he] at h
          by_cases h1 : startsWith (concat b c) ['E', 'R'] = true
          · rw [if_pos h1] at h; simp at h
          · rw [if_neg h1] at h
            by_cases h2 : startsWith (concat b c) ok = true
            · rw [if_pos h2] at h; simp at h
            · rw [if_neg h2] at h
              obtain ⟨b', p', e1, e2, pre, e3, e4⟩ := ih [] _ _ (by decide) h
              refine ⟨b', p', ?_, e2, concat b c ++ pre, ?_, Or.inr ?_⟩
              · intro fuel
                rw [hfuel, lineLoop_byte D ok name _ b p st w c hd hrx, if_pos he, if_neg h1,
                  if_neg h2, e1, haft]
              · rw [incoming_succ_some w k c hrx]
                simp only [List.nil_append] at e3
                rw [e3]; simp [concat]
              · rcases e4 with e4 | e4
                · rw [e4, List.append_nil]; exact (endsWith_iff _ _).mp he
                · exact List.IsSuffix.trans e4 (List.suffix_append _ _)
        · rw [if_neg he] at h
          obtain ⟨b', p', e1, e2, pre, e3, e4⟩ := ih (concat b c) p _ (no_EOL_concat b c hb he) h
          refine ⟨b', p', ?_, e2, pre, ?_, e4⟩
          · intro fuel
            rw [hfuel, lineLoop_byte D ok name _ b p st w c hd hrx, if_neg he, e1, haft]
          · rw [incoming_succ_some w k c hrx, ← e3]; simp [concat]
    · rw [lineLoop_timeout D ok name k b p st w hd] at h
      simp at h

theorem stdCmdLoopWith_3000 :
    ∀ (fuel : Nat) (b : List Char) (st : Nat) (w : World),
      stdCmdLoopWith 3000 fuel b st w = stdCmdLoop fuel b st w := by
  intro fuel
  induction fuel with
  | zero => intro b st w; rfl
  | succ fuel ih =>
    intro b st w
    simp only [stdCmdLoopWith, stdCmdLoop]
    split
    · split
      · split
        · rfl
        · split
          · rfl
          · exact ih _ _ _
      · exact ih _ _ _
    · rfl

theorem stdSetParamLoop_eq_with :
    ∀ (fuel : Nat) (b : List Char) (st : Nat) (w : World),
      stdSetParamLoop fuel b st w = stdCmdLoopWith 2000 fuel b st w := by
  intro fuel
  induction fuel with
  | zero => intro b st w; rfl
  | succ fuel ih =>
    intro b st w
    simp only [stdCmdLoopWith, stdSetParamLoop]
    split
    · split
      · split
        · rfl
        · split
          · rfl
          · exact ih _ _ _
      · exact ih _ _ _
    · rfl

theorem lineLoop_timeout_reading (D : Nat) (ok : List Char) (name : Option (List Char)) :
    ∀ (fuel : Nat) (b p : List Char) (st : Nat) (w : World) (q : List Char) (u : World),
      lineLoop D ok name fuel b p st w = some (TIMEOUT_ERROR, q, u) →
      ¬ (st + D) % ULONG_MODULUS > u.clock (u.clockCalls - 1) % ULONG_MODULUS := by
  intro fuel
  induction fuel with
  | zero => intro b p st w q u h; simp [lineLoop] at h
  | succ fuel ih =>
    intro b p st w q u h
    by_cases hd : (st + D) % ULONG_MODULUS > rdg w 0
    · rw [lineLoop_step D ok name fuel b p st w hd] at h
      split at h
      · split at h
        · simp at h
        · split at h
          · simp at h
          · exact ih _ _ _ _ _ _ h
      · exact ih _ _ _ _ _ _ h
    · rw [lineLoop_timeout D ok name fuel b p st w hd] at h
      simp only [Option.some.injEq, Prod.mk.injEq, true_and] at h
      rw [← h.2]
      simpa [after, rdg] using hd

theorem lineLoop_terminates (D : Nat) (ok : List Char) (name : Option (List Char)) (st : Nat) :
    ∀ (n : Nat) (b p : List Char) (w : World),
      ¬ (st + D) % ULONG_MODULUS > rdg w n →
      ∀ fuel, n + 1 ≤ fuel → ∃ x, lineLoop D ok name fuel b p st w = some x := by
  intro n
  induction n with
  | zero =>
    intro b p w hn fuel hf
    obtain ⟨f, rfl⟩ := Nat.exists_eq_add_of_le hf
    rw [Nat.add_comm (0 + 1) f]
    exact ⟨_, lineLoop_timeout D ok name f b p st w hn⟩
  | succ n ih =>
    intro b p w hn fuel hf
    obtain ⟨f, rfl⟩ := Nat.exists_eq_add_of_le hf
    have e : n + 1 + 1 + f = (n + 1 + f) + 1 := by omega
    rw [e]
    by_cases hd : (st + D) % ULONG_MODULUS > rdg w 0
    · have hn' : ¬ (st + D) % ULONG_MODULUS > rdg (after w 1 1) n := by
        rw [rdg_after, Nat.add_comm 1 n]; exact hn
      rw [lineLoop_step D ok name _ b p st w hd]
      split
      · split
        · exact ⟨_, rfl⟩
        · split
          · exact ⟨_, rfl⟩
          · exact ih _ _ _ hn' _ (by omega)
      · exact ih _ _ _ hn' _ (by omega)
    · exact ⟨_, lineLoop_timeout D ok name _ b p st w hd⟩

theorem lineLoop_input_only (D : Nat) (ok : List Char) (name : Option (List Char)) :
    ∀ (fuel : Nat) (b p : List Char) (st : Nat) (a c : World),
      a.clock = c.clock → a.clockCalls = c.clockCalls → a.serialIn = c.serialIn →
      a.polls = c.polls →
      (lineLoop D ok name fuel b p st a).map (fun x => (x.1, x.2.1)) =
        (lineLoop D ok name fuel b p st c).map (fun x => (x.1, x.2.1)) := by
  intro fuel
  induction fuel with
  | zero => intro b p st a c _ _ _ _; rfl
  | succ fuel ih =>
    intro b p st a c h1 h2 h3 h4
    have hr : rdg a 0 = rdg c 0 := by simp [rdg, h1, h2]
    have hx : rxv a 0 = rxv c 0 := by simp [rxv, h3, h4]
    have hg : grown b a = grown b c := by simp [grown, hx]
    have hn := ih
    by_cases hd : (st + D) % ULONG_MODULUS > rdg a 0
    · rw [lineLoop_step D ok name fuel b p st a hd,
        lineLoop_step D ok name fuel b p st c (by rw [← hr]; exact hd), hg]
      split
      · split
        · rfl
        · split
          · rfl
          · exact ih _ _ _ _ _ h1 (by simp [after, h2]) h3 (by simp [after, h4])
      · exact ih _ _ _ _ _ h1 (by simp [after, h2]) h3 (by simp [after, h4])
    · rw [lineLoop_timeout D ok name fuel b p st a hd,
        lineLoop_timeout D ok name fuel b p st c (by rw [← hr]; exact hd)]
      rfl

/-! ## `setBaudRate`: the value written -/

/-- C1: for each of the five enumerated rates `setBaudRate` is the call
`stdSetParam("BAUD", stringSpeed)`, whose value is not the numeral selected by
the `switch`.  Evaluated on a silent port: for `s9600bps` with `stringSpeed`
empty the bytes written are the probe and `SET BAUD=` with no numeral; for
`s19200bps` with `stringSpeed` holding `9600` the numeral written is `9600`. -/
theorem setBaudRate_writes_stringSpeed :
    (∀ (fuel : Nat) (stringSpeed : List Char) (w : World),
      setBaudRate fuel s9600bps stringSpeed w =
        stdSetParam fuel ['B', 'A', 'U', 'D'] stringSpeed w ∧
      setBaudRate fuel s19200bps stringSpeed w =
        stdSetParam fuel ['B', 'A', 'U', 'D'] stringSpeed w ∧
      setBaudRate fuel s38400bps stringSpeed w =
        stdSetParam fuel ['B', 'A', 'U', 'D'] stringSpeed w ∧
      setBaudRate fuel s57600bps stringSpeed w =
        stdSetParam fuel ['B', 'A', 'U', 'D'] stringSpeed w ∧
      setBaudRate fuel s115200bps stringSpeed w =
        stdSetParam fuel ['B', 'A', 'U', 'D'] stringSpeed w) ∧
    (setBaudRate 3 s9600bps [] (simWorld 1000 [])).map (fun p => (p.1, p.2.written))
      = some (TIMEOUT_ERROR, ['\r', 'S', 'E', 'T', ' ', 'B', 'A', 'U', 'D', '=', '\r']) ∧
    (setBaudRate 3 s19200bps ['9', '6', '0', '0'] (simWorld 1000 [])).map
        (fun p => (p.1, p.2.written))
      = some (TIMEOUT_ERROR,
          ['\r', 'S', 'E', 'T', ' ', 'B', 'A', 'U', 'D', '=', '9', '6', '0', '0', '\r']) := by
  refine ⟨fun fuel stringSpeed w => ⟨rfl, rfl, rfl, rfl, rfl⟩, by decide, by decide⟩

/-! ## `setBaudRate`: rejected input -/

/-- C2: an input of `setBaudRate` that is none of the five enumerated rates gives
`INVALID_PARAM` and leaves the environment untouched: nothing is written (no
resync probe, no command), nothing is read, no poll and no clock call is made. -/
theorem setBaudRate_invalid (fuel : Nat) (newSpeed : baudRates) (stringSpeed : List Char)
    (w : World)
    (h : newSpeed ≠ s9600bps ∧ newSpeed ≠ s19200bps ∧ newSpeed ≠ s38400bps ∧
      newSpeed ≠ s57600bps ∧ newSpeed ≠ s115200bps) :
    setBaudRate fuel newSpeed stringSpeed w = some (INVALID_PARAM, w) := by
  obtain ⟨h0, h1, h2, h3, h4⟩ := h
  simp [setBaudRate, h0, h1, h2, h3, h4]

/-- Witness of C2 at the out-of-range rate value `5`, with no fuel at all. -/
theorem setBaudRate_invalid_witness :
    ((5 : baudRates) ≠ s9600bps ∧ (5 : baudRates) ≠ s19200bps ∧ (5 : baudRates) ≠ s38400bps ∧
      (5 : baudRates) ≠ s57600bps ∧ (5 : baudRates) ≠ s115200bps) ∧
    setBaudRate 0 5 [] (simWorld 1000 []) = some (INVALID_PARAM, simWorld 1000 []) :=
  ⟨by decide, setBaudRate_invalid 0 5 [] (simWorld 1000 []) (by decide)⟩

/-! ## A line starting with `OK` -/

/-- C3: after `knownStart` has returned (leaving the environment `w1`), let the
port deliver within `n + 1` polls, the last byte at the last of them, the complete
lines `infos` (none contains the terminator, none starts with `ER` or `OK`)
followed by a line that starts with `OK` and the terminator.  If every clock
reading of those `n + 1` iterations is before the deadline (3000 ms for `stdCmd`,
2000 ms for `stdSetParam`), the operation returns `SUCCESS` having read exactly
those bytes, for every command, name and value and every sufficient fuel. -/
theorem okLine_success (w w1 : World) (r0 : opResult) (f0 : Nat)
    (hk : knownStart f0 w = some (r0, w1))
    (infos : List (List Char)) (rest : List Char) (n : Nat)
    (hinfos : ∀ l, l ∈ infos → ¬ EOL <:+: l ∧ startsWith l ['E', 'R'] = false ∧
      startsWith l ['O', 'K'] = false)
    (hrest : ¬ EOL <:+: rest)
    (hin : incoming w1 (n + 1) =
      (infos.map (fun l => l ++ EOL)).flatten ++ ((['O', 'K'] ++ rest) ++ EOL))
    (hlast : rxv w1 n ≠ none)
    (fuel : Nat) (hf0 : f0 ≤ fuel) (hfn : n + 1 ≤ fuel) :
    (∀ command : List Char,
      (∀ i, i ≤ n → (rdg w1 0 + 3000) % ULONG_MODULUS > rdg w1 (i + 1)) →
      stdCmd fuel command w =
        some (SUCCESS, after (printf (c_str command ++ ['\r']) w1) (n + 2) (n + 1))) ∧
    (∀ command param : List Char,
      (∀ i, i ≤ n → (rdg w1 0 + 2000) % ULONG_MODULUS > rdg w1 (i + 1)) →
      stdSetParam fuel command param w =
        some (SUCCESS,
          after (printf (['S', 'E', 'T', ' '] ++ c_str command ++ ['='] ++ c_str param ++ ['\r']) w1)
            (n + 2) (n + 1))) := by
  have hfin : ¬ EOL <:+: ['O', 'K'] ++ rest :=
    no_EOL_cons 'O' _ (by decide) (no_EOL_cons 'K' _ (by decide) hrest)
  have hok : startsWith (['O', 'K'] ++ rest) ['O', 'K'] = true := by
    simp [startsWith, List.isPrefixOf]
  have her : startsWith (['O', 'K'] ++ rest) ['E', 'R'] = false := by
    simp [startsWith, List.isPrefixOf]
  constructor
  · intro command hcl
    have := run_status (Operation.cmd command) w w1 r0 f0 hk infos (['O', 'K'] ++ rest) n []
      hinfos hfin (Or.inr hok) hin hlast hcl fuel hf0 hfn
    rw [her] at this
    exact map_world_eq _ _ _ _ _ this
  · intro command param hcl
    have := run_status (Operation.setParam command param) w w1 r0 f0 hk infos
      (['O', 'K'] ++ rest) n [] hinfos hfin (Or.inr hok) hin hlast hcl fuel hf0 hfn
    rw [her] at this
    exact map_world_eq _ _ _ _ _ this

/-- Witness of C3: the port answers the probe with `ERROR` and the command with
`OK` and the terminator; `stdCmd` and `stdSetParam` return `SUCCESS`. -/
theorem okLine_success_witness :
    knownStart 8 okWorld = some (SUCCESS, after (printf ['\r'] okWorld) 15 7) ∧
    incoming (after (printf ['\r'] okWorld) 15 7) 4 = ['O', 'K', '\n', '\r'] ∧
    stdCmd 8 ['W', 'R', 'I', 'T', 'E'] okWorld =
      some (SUCCESS,
        after (printf (c_str ['W', 'R', 'I', 'T', 'E'] ++ ['\r']) (after (printf ['\r'] okWorld) 15 7))
          5 4) ∧
    stdSetParam 8 ['B', 'L', 'E', '_', 'R', 'O', 'L', 'E'] ['0'] okWorld =
      some (SUCCESS,
        after (printf (['S', 'E', 'T', ' '] ++ c_str ['B', 'L', 'E', '_', 'R', 'O', 'L', 'E'] ++
          ['='] ++ c_str ['0'] ++ ['\r']) (after (printf ['\r'] okWorld) 15 7)) 5 4) :=
  have h := okLine_success okWorld (after (printf ['\r'] okWorld) 15 7) SUCCESS 8 rfl [] [] 3
    (by simp) (by decide) rfl (by decide) 8 (by decide) (by decide)
  ⟨rfl, rfl, h.1 _ (by decide), h.2 _ _ (by decide)⟩

/-! ## A line starting with `ER` -/

/-- C4: for each of the four operations, after `knownStart` has returned
(leaving `w1`), let the port deliver within `n + 1` polls, the last byte at the
last of them, complete lines `infos` none of which starts with a status prefix of
that operation (`ER`, and `OK` or for `reset` `Re`), followed by a line that
starts with `ER` (anything may follow) and the terminator.  If every clock
reading of those iterations is before the operation's deadline, the operation
returns `MODULE_ERROR` having read exactly those bytes. -/
theorem erLine_moduleError (op : Operation) (w w1 : World) (r0 : opResult) (f0 : Nat)
    (hk : knownStart f0 w = some (r0, w1))
    (infos : List (List Char)) (rest : List Char) (n : Nat) (param : List Char)
    (hinfos : ∀ l, l ∈ infos → ¬ EOL <:+: l ∧ startsWith l ['E', 'R'] = false ∧
      startsWith l op.okMark = false)
    (hrest : ¬ EOL <:+: rest)
    (hin : incoming w1 (n + 1) =
      (infos.map (fun l => l ++ EOL)).flatten ++ ((['E', 'R'] ++ rest) ++ EOL))
    (hlast : rxv w1 n ≠ none)
    (hcl : ∀ i, i ≤ n → (rdg w1 0 + op.deadline) % ULONG_MODULUS > rdg w1 (i + 1))
    (fuel : Nat) (hf0 : f0 ≤ fuel) (hfn : n + 1 ≤ fuel) :
    op.run fuel param w =
      some (MODULE_ERROR, captureAll op.captured infos param,
        after (printf op.line w1) (n + 2) (n + 1)) := by
  have hfin : ¬ EOL <:+: ['E', 'R'] ++ rest :=
    no_EOL_cons 'E' _ (by decide) (no_EOL_cons 'R' _ (by decide) hrest)
  have her : startsWith (['E', 'R'] ++ rest) ['E', 'R'] = true := by
    simp [startsWith, List.isPrefixOf]
  have := run_status op w w1 r0 f0 hk infos (['E', 'R'] ++ rest) n param
    hinfos hfin (Or.inl her) hin hlast hcl fuel hf0 hfn
  rw [her] at this
  exact this

/-- Witness of C4: the port emits `ERXYZ` and the terminator in response to the
command; all four operations return `MODULE_ERROR`. -/
theorem erLine_moduleError_witness :
    knownStart 8 erWorld = some (SUCCESS, after (printf ['\r'] erWorld) 15 7) ∧
    incoming (after (printf ['\r'] erWorld) 15 7) 7 = ['E', 'R', 'X', 'Y', 'Z', '\n', '\r'] ∧
    stdCmd 8 ['W', 'R', 'I', 'T', 'E'] erWorld =
      some (MODULE_ERROR,
        after (printf ['W', 'R', 'I', 'T', 'E', '\r'] (after (printf ['\r'] erWorld) 15 7)) 8 7) ∧
    stdSetParam 8 ['B', 'A', 'U', 'D'] ['9', '6', '0', '0'] erWorld =
      some (MODULE_ERROR,
        after (printf ['S', 'E', 'T', ' ', 'B', 'A', 'U', 'D', '=', '9', '6', '0', '0', '\r']
          (after (printf ['\r'] erWorld) 15 7)) 8 7) ∧
    stdGetParam 8 ['N', 'A', 'M', 'E'] [] erWorld =
      some (MODULE_ERROR, [],
        after (printf ['G', 'E', 'T', ' ', 'N', 'A', 'M', 'E', '\r']
          (after (printf ['\r'] erWorld) 15 7)) 8 7) ∧
    BC127.reset 8 erWorld =
      some (MODULE_ERROR,
        after (printf ['R', 'E', 'S', 'E', 'T', '\r'] (after (printf ['\r'] erWorld) 15 7)) 8 7) :=
  have h := fun (op : Operation) (hcl : _) =>
    erLine_moduleError op erWorld (after (printf ['\r'] erWorld) 15 7) SUCCESS 8 rfl []
      ['X', 'Y', 'Z'] 6 [] (by simp) (by decide) rfl (by decide) hcl 8 (by decide) (by decide)
  ⟨rfl, rfl,
    map_world_eq [] (stdCmd 8 ['W', 'R', 'I', 'T', 'E'] erWorld) _ _ _
      (h (Operation.cmd ['W', 'R', 'I', 'T', 'E']) (by decide)),
    map_world_eq [] (stdSetParam 8 ['B', 'A', 'U', 'D'] ['9', '6', '0', '0'] erWorld) _ _ _
      (h (Operation.setParam ['B', 'A', 'U', 'D'] ['9', '6', '0', '0']) (by decide)),
    h (Operation.getParam ['N', 'A', 'M', 'E']) (by decide),
    map_world_eq [] (BC127.reset 8 erWorld) _ _ _ (h Operation.reset (by decide))⟩

/-! ## The deadline -/

/-- C5: for each of the four operations, after `knownStart` has returned
(leaving `w1`), let `rdg w1 0` be the timestamp taken when the command was
written and let `start + deadline` not overflow.  If no terminator is among the
bytes the port delivers and reading `n + 1` is the first one that is at least
`deadline` ms after the timestamp, the operation returns `TIMEOUT_ERROR` at that
reading, whatever other bytes arrive: it has made exactly `n + 2` clock calls and
`n` polls, and fewer than `n + 1` iterations do not make it return.  The
deadline is 3000 ms for `stdCmd` and 2000 ms for the other three. -/
theorem deadline_timeout (op : Operation) (w w1 : World) (r0 : opResult) (f0 : Nat)
    (hk : knownStart f0 w = some (r0, w1)) (n : Nat) (param : List Char)
    (hnever : ∀ m, ¬ EOL <:+: incoming w1 m)
    (hov : rdg w1 0 + op.deadline < ULONG_MODULUS)
    (hbefore : ∀ i, i < n → rdg w1 (i + 1) < rdg w1 0 + op.deadline)
    (hat : rdg w1 0 + op.deadline ≤ rdg w1 (n + 1)) :
    (∀ fuel, f0 ≤ fuel → n + 1 ≤ fuel →
      op.run fuel param w =
        some (TIMEOUT_ERROR, param, after (printf op.line w1) (n + 2) n)) ∧
    (∀ fuel, fuel ≤ n → op.run fuel param w = none) := by
  have hmod : (rdg w1 0 + op.deadline) % ULONG_MODULUS = rdg w1 0 + op.deadline :=
    Nat.mod_eq_of_lt hov
  have := run_deadline op w w1 r0 f0 hk [] (incoming w1 n) n param (by simp) (hnever n)
    (by simp) (fun i hi => by rw [hmod]; exact hbefore i hi) (by rw [hmod]; omega)
  simpa [captureAll] using this

/-- Witness of C5 on a silent port: `knownStart` times out after 4 clock calls
and 3 polls, the command is stamped at 2000 ms, `stdCmd` returns at the reading
5000 and `reset` at the reading 4000. -/
theorem deadline_timeout_witness :
    knownStart 4 silentWorld = some (TIMEOUT_ERROR, after (printf ['\r'] silentWorld) 4 3) ∧
    rdg (after (printf ['\r'] silentWorld) 4 3) 0 = 2000 ∧
    rdg (after (printf ['\r'] silentWorld) 4 3) 6 = 5000 ∧
    rdg (after (printf ['\r'] silentWorld) 4 3) 4 = 4000 ∧
    ((∀ fuel, 4 ≤ fuel → 5 + 1 ≤ fuel →
      (Operation.cmd ['W', 'R', 'I', 'T', 'E']).run fuel [] silentWorld =
        some (TIMEOUT_ERROR, [],
          after (printf (Operation.cmd ['W', 'R', 'I', 'T', 'E']).line
            (after (printf ['\r'] silentWorld) 4 3)) (5 + 2) 5)) ∧
     (∀ fuel, fuel ≤ 5 → (Operation.cmd ['W', 'R', 'I', 'T', 'E']).run fuel [] silentWorld = none)) ∧
    ((∀ fuel, 4 ≤ fuel → 3 + 1 ≤ fuel →
      Operation.reset.run fuel [] silentWorld =
        some (TIMEOUT_ERROR, [],
          after (printf Operation.reset.line (after (printf ['\r'] silentWorld) 4 3)) (3 + 2) 3)) ∧
     (∀ fuel, fuel ≤ 3 → Operation.reset.run fuel [] silentWorld = none)) :=
  have hsilent : ∀ m, ¬ EOL <:+: incoming (after (printf ['\r'] silentWorld) 4 3) m := by
    intro m
    have : ∀ p, delivered (feedBytes []) p m = [] := by
      induction m with
      | zero => intro p; rfl
      | succ m ih => intro p; simp [delivered, feedBytes, ih]
    have e : incoming (after (printf ['\r'] silentWorld) 4 3) m = [] := this _
    rw [e]; decide
  ⟨rfl, rfl, rfl, rfl,
    deadline_timeout (Operation.cmd ['W', 'R', 'I', 'T', 'E']) silentWorld
      (after (printf ['\r'] silentWorld) 4 3) TIMEOUT_ERROR 4 rfl 5 [] hsilent
      (by decide) (by decide) (by decide),
    deadline_timeout Operation.reset silentWorld
      (after (printf ['\r'] silentWorld) 4 3) TIMEOUT_ERROR 4 rfl 3 [] hsilent
      (by decide) (by decide) (by decide)⟩

/-! ## `stdGetParam`: the value returned -/

/-- C6 (amended): for every parameter name that does not start with `ER` or
`OK` and contains no terminator, and every value that contains no terminator:
after `knownStart` has returned (leaving `w1`), let the port deliver an
informational line (no terminator inside, not starting with `ER` or `OK`), then
the name, `=`, the value and the terminator, then `OK` and the terminator, the
last byte at poll `n`, every clock reading of those iterations being before the
2000 ms deadline.  Then `stdGetParam` returns `SUCCESS` and the output string is
`trim value`, whatever the informational line and the previous content of the
output string. -/
theorem getParam_value (w w1 : World) (r0 : opResult) (f0 : Nat)
    (hk : knownStart f0 w = some (r0, w1))
    (command value info param : List Char) (n : Nat)
    (hc1 : startsWith command ['E', 'R'] = false)
    (hc2 : startsWith command ['O', 'K'] = false)
    (hc3 : ¬ EOL <:+: command)
    (hv : ¬ EOL <:+: value)
    (hi : ¬ EOL <:+: info ∧ startsWith info ['E', 'R'] = false ∧
      startsWith info ['O', 'K'] = false)
    (hin : incoming w1 (n + 1) =
      info ++ EOL ++ (command ++ ['='] ++ value ++ EOL) ++ (['O', 'K'] ++ EOL))
    (hlast : rxv w1 n ≠ none)
    (hcl : ∀ i, i ≤ n → (rdg w1 0 + 2000) % ULONG_MODULUS > rdg w1 (i + 1))
    (fuel : Nat) (hf0 : f0 ≤ fuel) (hfn : n + 1 ≤ fuel) :
    stdGetParam fuel command param w =
      some (SUCCESS, trim value,
        after (printf (['G', 'E', 'T', ' '] ++ c_str command ++ ['\r']) w1) (n + 2) (n + 1)) := by
  have hinfos : ∀ l, l ∈ [info, command ++ '=' :: value] →
      ¬ EOL <:+: l ∧ startsWith l ['E', 'R'] = false ∧
        startsWith l (Operation.getParam command).okMark = false := by
    intro l hl
    simp only [List.mem_cons, List.mem_singleton, List.not_mem_nil, or_false] at hl
    rcases hl with rfl | rfl
    · exact hi
    · exact ⟨no_EOL_append_sep '=' (by decide) (by decide) value hv command hc3,
        startsWith_sep 'E' 'R' '=' (by decide) (by decide) value command hc1,
        startsWith_sep 'O' 'K' '=' (by decide) (by decide) value command hc2⟩
  have := run_status (Operation.getParam command) w w1 r0 f0 hk
    [info, command ++ '=' :: value] ['O', 'K'] n param hinfos (by decide)
    (Or.inr rfl) (by rw [hin]; simp) hlast hcl fuel hf0 hfn
  have hcap : captureAll (Operation.getParam command).captured [info, command ++ '=' :: value]
      param = trim value := by
    simp only [captureAll, List.foldl, Operation.captured]
    exact capture_name_line command value _
  rw [hcap] at this
  exact this

/-- Witness of C6: `addressQuery` on the response of the specification. -/
theorem getParam_value_witness :
    knownStart 8 addrWorld = some (SUCCESS, after (printf ['\r'] addrWorld) 15 7) ∧
    incoming (after (printf ['\r'] addrWorld) 15 7) 45 =
      "INFO line".toList ++ EOL ++ ("LOCAL_ADDR".toList ++ ['='] ++
        "AA:BB:CC:DD:EE:FF".toList ++ EOL) ++ (['O', 'K'] ++ EOL) ∧
    addressQuery 45 "old".toList addrWorld =
      some (SUCCESS, "AA:BB:CC:DD:EE:FF".toList,
        after (printf "GET LOCAL_ADDR\r".toList (after (printf ['\r'] addrWorld) 15 7)) 46 45) :=
  ⟨rfl, rfl,
    getParam_value addrWorld (after (printf ['\r'] addrWorld) 15 7) SUCCESS 8 rfl
      "LOCAL_ADDR".toList "AA:BB:CC:DD:EE:FF".toList "INFO line".toList "old".toList 44
      (by decide) (by decide) (by decide) (by decide) (by decide) rfl (by decide) (by decide)
      45 (by decide) (by decide)⟩

/-- C6 as stated fails for a name that contains the terminator: with the name
`A\n\r` and the value `1` every hypothesis of the claim holds, and `stdGetParam`
returns `SUCCESS` with an empty output string instead of `1`. -/
theorem getParam_value_name_with_terminator :
    startsWith "A\n\r".toList ['E', 'R'] = false ∧
    startsWith "A\n\r".toList ['O', 'K'] = false ∧
    ¬ EOL <:+: "1".toList ∧
    (¬ EOL <:+: "I".toList ∧ startsWith "I".toList ['E', 'R'] = false ∧
      startsWith "I".toList ['O', 'K'] = false ∧ startsWith "I".toList "A\n\r".toList = false) ∧
    knownStart 8 splitNameWorld = some (SUCCESS, after (printf ['\r'] splitNameWorld) 15 7) ∧
    incoming (after (printf ['\r'] splitNameWorld) 15 7) 14 =
      "I".toList ++ EOL ++ ("A\n\r".toList ++ ['='] ++ "1".toList ++ EOL) ++ (['O', 'K'] ++ EOL) ∧
    (∀ i, i ≤ 13 → (rdg (after (printf ['\r'] splitNameWorld) 15 7) 0 + 2000) % ULONG_MODULUS >
      rdg (after (printf ['\r'] splitNameWorld) 15 7) (i + 1)) ∧
    (stdGetParam 14 "A\n\r".toList "old".toList splitNameWorld).map (fun x => (x.1, x.2.1)) =
      some (SUCCESS, []) ∧
    trim "1".toList = ['1'] := by
  refine ⟨by decide, by decide, by decide, by decide, rfl, rfl, by decide, by decide, by decide⟩

/-! ## `stdGetParam`: what `SUCCESS` means -/

/-- C7 (amended): whenever `stdGetParam` returns `SUCCESS`, the bytes read after
the command was written are complete lines that were no status lines followed
by a line that starts with `OK`, and the output string is either the value
extracted during this call from one of those complete lines that starts with the
queried name, or, when none of them starts with the name, the string the caller
passed in, unchanged. -/
theorem getParam_success_value (fuel : Nat) (command param : List Char) (w : World)
    (p : List Char) (u : World)
    (h : stdGetParam fuel command param w = some (SUCCESS, p, u)) :
    ∃ (r0 : opResult) (w1 : World) (lines : List (List Char)) (fin : List Char),
      knownStart fuel w = some (r0, w1) ∧
      u.consumed = w1.consumed ++ ((lines.map (fun l => l ++ EOL)).flatten ++ (fin ++ EOL)) ∧
      (∀ l, l ∈ lines → ¬ EOL <:+: l ∧ startsWith (l ++ EOL) ['E', 'R'] = false ∧
        startsWith (l ++ EOL) ['O', 'K'] = false) ∧
      ¬ EOL <:+: fin ∧ startsWith (fin ++ EOL) ['O', 'K'] = true ∧
      (((∀ l, l ∈ lines → startsWith (l ++ EOL) command = false) ∧ p = param) ∨
        (∃ l, l ∈ lines ∧ startsWith (l ++ EOL) command = true ∧
          p = trim (substring (l ++ EOL) (command.length + 1)))) := by
  have hrun := run_eq (Operation.getParam command) fuel param w
  simp only [Operation.run] at hrun
  rw [h] at hrun
  cases hk : knownStart fuel w with
  | none => rw [hk] at hrun; simp at hrun
  | some k =>
    obtain ⟨r0, w1⟩ := k
    rw [hk] at hrun
    simp only at hrun
    obtain ⟨bytes, lines, tail, e1, e2, e3, e4, _, e6, _⟩ :=
      lineLoop_sound _ _ _ _ _ _ _ _ _ _ _ (by decide) hrun.symm
    obtain ⟨⟨fin, hfin, hnf⟩, _, hok⟩ := e6 rfl
    simp only [List.nil_append] at e2
    refine ⟨r0, w1, lines, fin, rfl, ?_, e3, hnf, by rw [← hfin]; exact hok, ?_⟩
    · rw [e1, e2, hfin]; simp [after, printf, incoming, delivered]
    · rw [e4]
      exact captureAll_cases command lines param

/-- Witness of C7 (amended): a query for `N` answered with `N=5` and `OK`. -/
theorem getParam_success_value_witness :
    stdGetParam 9 ['N'] "old".toList shortWorld =
      some (SUCCESS, ['5'],
        after (printf "GET N\r".toList (after (printf ['\r'] shortWorld) 15 7)) 10 9) ∧
    ∃ (r0 : opResult) (w1 : World) (lines : List (List Char)) (fin : List Char),
      knownStart 9 shortWorld = some (r0, w1) ∧
      (after (printf "GET N\r".toList (after (printf ['\r'] shortWorld) 15 7)) 10 9).consumed =
        w1.consumed ++ ((lines.map (fun l => l ++ EOL)).flatten ++ (fin ++ EOL)) ∧
      (∀ l, l ∈ lines → ¬ EOL <:+: l ∧ startsWith (l ++ EOL) ['E', 'R'] = false ∧
        startsWith (l ++ EOL) ['O', 'K'] = false) ∧
      ¬ EOL <:+: fin ∧ startsWith (fin ++ EOL) ['O', 'K'] = true ∧
      (((∀ l, l ∈ lines → startsWith (l ++ EOL) ['N'] = false) ∧ ['5'] = "old".toList) ∨
        (∃ l, l ∈ lines ∧ startsWith (l ++ EOL) ['N'] = true ∧
          ['5'] = trim (substring (l ++ EOL) (['N'].length + 1)))) :=
  ⟨rfl, getParam_success_value 9 ['N'] "old".toList shortWorld _ _ rfl⟩

/-- C7 as stated fails: the port answers the query with `OK` alone; `stdGetParam`
returns `SUCCESS`, no line that starts with the queried name was read, and the
output string still holds what the caller passed in. -/
theorem getParam_success_without_value :
    (stdGetParam 8 "LOCAL_ADDR".toList "old".toList okWorld).map
        (fun x => (x.1, x.2.1, x.2.2.consumed)) =
      some (SUCCESS, "old".toList, "ERROR\n\rOK\n\r".toList) := by
  decide

/-! ## `reset` -/

/-- C8: `reset` writes `RESET` and a carriage return after the probe.  After
`knownStart` has returned (leaving `w1`), let the port deliver the complete lines
`infos`, none of which starts with `ER` or `Re` (they may start with `OK`).  If
they are followed by a line `fin` that starts with `ER` or `Re`, completed at poll
`n` before the 2000 ms deadline, `reset` returns at that line, `MODULE_ERROR`
for `ER` and `SUCCESS` for `Re`.  If they are followed by an unterminated rest
`part` when the deadline is reached, `reset` returns `TIMEOUT_ERROR`. -/
theorem reset_classification (w w1 : World) (r0 : opResult) (f0 : Nat)
    (hk : knownStart f0 w = some (r0, w1)) (infos : List (List Char)) (n : Nat)
    (hinfos : ∀ l, l ∈ infos → ¬ EOL <:+: l ∧ startsWith l ['E', 'R'] = false ∧
      startsWith l ['R', 'e'] = false) :
    (∀ fuel r w2, BC127.reset fuel w = some (r, w2) →
      w2.written = w.written ++ ['\r'] ++ ['R', 'E', 'S', 'E', 'T', '\r']) ∧
    (∀ fin : List Char, ¬ EOL <:+: fin →
      startsWith fin ['E', 'R'] = true ∨ startsWith fin ['R', 'e'] = true →
      incoming w1 (n + 1) = (infos.map (fun l => l ++ EOL)).flatten ++ (fin ++ EOL) →
      rxv w1 n ≠ none →
      (∀ i, i ≤ n → (rdg w1 0 + 2000) % ULONG_MODULUS > rdg w1 (i + 1)) →
      ∀ fuel, f0 ≤ fuel → n + 1 ≤ fuel →
        BC127.reset fuel w =
          some (if startsWith fin ['E', 'R'] then MODULE_ERROR else SUCCESS,
            after (printf ['R', 'E', 'S', 'E', 'T', '\r'] w1) (n + 2) (n + 1))) ∧
    (∀ part : List Char, ¬ EOL <:+: part →
      incoming w1 n = (infos.map (fun l => l ++ EOL)).flatten ++ part →
      (∀ i, i < n → (rdg w1 0 + 2000) % ULONG_MODULUS > rdg w1 (i + 1)) →
      ¬ (rdg w1 0 + 2000) % ULONG_MODULUS > rdg w1 (n + 1) →
      ∀ fuel, f0 ≤ fuel → n + 1 ≤ fuel →
        BC127.reset fuel w =
          some (TIMEOUT_ERROR, after (printf ['R', 'E', 'S', 'E', 'T', '\r'] w1) (n + 2) n)) := by
  refine ⟨?_, ?_, ?_⟩
  · intro fuel r w2 h
    have := run_written Operation.reset fuel [] w (r, [], w2) (by simp [Operation.run, h])
    exact this
  · intro fin hfin hstat hin hlast hcl fuel hf0 hfn
    exact map_world_eq [] _ _ _ _
      (run_status Operation.reset w w1 r0 f0 hk infos fin n [] hinfos hfin hstat hin hlast hcl
        fuel hf0 hfn)
  · intro part hpart hin hcl hend fuel hf0 hfn
    exact map_world_eq [] _ _ _ _
      ((run_deadline Operation.reset w w1 r0 f0 hk infos part n [] hinfos hpart hin hcl hend).1
        fuel hf0 hfn)

/-- Witness of C8: the `OK` line is discarded and `reset` returns `SUCCESS` at
the line `Ready`. -/
theorem reset_classification_witness :
    knownStart 8 readyWorld = some (SUCCESS, after (printf ['\r'] readyWorld) 15 7) ∧
    incoming (after (printf ['\r'] readyWorld) 15 7) 11 =
      ['O', 'K', '\n', '\r', 'R', 'e', 'a', 'd', 'y', '\n', '\r'] ∧
    BC127.reset 11 readyWorld =
      some (SUCCESS,
        after (printf ['R', 'E', 'S', 'E', 'T', '\r'] (after (printf ['\r'] readyWorld) 15 7))
          12 11) :=
  ⟨rfl, rfl,
    (reset_classification readyWorld (after (printf ['\r'] readyWorld) 15 7) SUCCESS 8 rfl
      [['O', 'K']] 10 (by decide)).2.1 ['R', 'e', 'a', 'd', 'y'] (by decide) (by decide) rfl
      (by decide) (by decide) 11 (by decide) (by decide)⟩

/-! ## `knownStart`: the result -/

/-- C9 (amended): whenever `knownStart` returns, the result is `SUCCESS` or
`TIMEOUT_ERROR`, the probe has been written, and the bytes read are the bytes of
the first `k` polls, with no terminator among them before the last byte: nothing
is read after the first terminator.  The result is `SUCCESS` exactly when these
bytes end with the terminator, whatever the line contains, and the inactivity
test did not fire on the two clock readings taken after the last byte; when it
fires there the result is `TIMEOUT_ERROR` although the terminator was read.
Conversely, when the port delivers the first terminator at poll `n` and all
clock readings up to then lie within one window of 1000 ms that does not
overflow, `knownStart` returns `SUCCESS` having read exactly the bytes up to and
including that terminator. -/
theorem knownStart_result (fuel : Nat) (w : World) (r : opResult) (u : World)
    (h : knownStart fuel w = some (r, u)) :
    (∃ k : Nat, u.polls = w.polls + k ∧ u.consumed = w.consumed ++ incoming w k ∧
      u.written = w.written ++ ['\r'] ∧
      (r = SUCCESS ∨ r = TIMEOUT_ERROR) ∧
      ¬ EOL <:+: (incoming w k).dropLast ∧
      (r = SUCCESS ↔ EOL <:+ incoming w k ∧ lastTestFired u = false)) ∧
    (∀ n lo : Nat, lo + 2000 < ULONG_MODULUS →
      EOL <:+ incoming w (n + 1) →
      ¬ EOL <:+: (incoming w (n + 1)).dropLast →
      rxv w n ≠ none →
      (∀ j, j ≤ 2 * (n + 1) → lo ≤ rdg w j ∧ rdg w j ≤ lo + 1000) →
      ∀ fuel2, n + 2 ≤ fuel2 →
        knownStart fuel2 w =
          some (SUCCESS,
            after (printf ['\r'] w) (n + 2 + (incoming w (n + 1)).length) (n + 1))) := by
  constructor
  · have hw := knownStart_written fuel w (r, u) h
    rw [knownStart_eq] at h
    obtain ⟨k, e1, e2, e3, e4, e5, e6, e7⟩ := knownStartLoop_sound _ _ _ _ _ _ h
    rw [incoming_written] at e2 e4 e5 e7
    simp only [List.nil_append] at e4 e5 e7
    refine ⟨k, e1, ?_, hw, e3, ?_, ?_⟩
    · rw [e2]; simp [after, printf, incoming, delivered]
    · apply no_EOL_dropLast_of_prefixes
      intro t ht hne hs
      have := e4 t ht hne
      rw [← endsWith_iff, this] at hs
      exact absurd hs (by decide)
    · constructor
      · intro hr
        exact ⟨(endsWith_iff _ _).mp (e5 hr), e6 hr endsWith_nil_EOL⟩
      · rintro ⟨hs, hf⟩
        rcases e3 with hr | hr
        · exact hr
        · have := e7 hr ((endsWith_iff _ _).mpr hs)
          rw [hf] at this
          exact absurd this (by decide)
  · intro n lo hlo hend hpre hlast hwin fuel2 hf
    obtain ⟨f, rfl⟩ := Nat.exists_eq_add_of_le hf
    rw [knownStart_eq]
    have := knownStartLoop_flush lo hlo n f [] (rdg w 0) (after (printf ['\r'] w) 1 0)
      endsWith_nil_EOL
      (by
        intro t ht hne
        rw [incoming_written] at ht hne
        rw [List.nil_append, Bool.eq_false_iff]
        intro hh
        exact prefixes_of_no_EOL_dropLast _ hpre t ht hne ((endsWith_iff _ _).mp hh))
      (by rw [incoming_written, List.nil_append]; exact (endsWith_iff _ _).mpr hend)
      (by rw [rxv_written]; exact hlast)
      (hwin 0 (by omega))
      (fun j hj => by rw [rdg_written]; exact hwin (1 + j) (by omega))
    rw [this, after_after, incoming_written]
    congr 3 <;> omega

/-- Witness of C9 (amended): a stale `OK` line followed by silence gives
`SUCCESS` with exactly those four bytes read in four polls. -/
theorem knownStart_result_witness :
    knownStart 5 staleWorld = some (SUCCESS, after (printf ['\r'] staleWorld) 9 4) ∧
    (after (printf ['\r'] staleWorld) 9 4).consumed = "OK\n\r".toList ∧
    knownStart 7 staleWorld =
      some (SUCCESS, after (printf ['\r'] staleWorld) (3 + 2 + (incoming staleWorld (3 + 1)).length)
        (3 + 1)) :=
  ⟨rfl, rfl,
    (knownStart_result 5 staleWorld SUCCESS (after (printf ['\r'] staleWorld) 9 4) rfl).2 3 0
      (by decide) (by decide) (by decide) (by decide) (by decide) 7 (by decide)⟩

/-- C9 as stated fails: `knownStart` returns `TIMEOUT_ERROR` although the bytes
it has accumulated are exactly the terminator, when the inactivity test fires in
the iteration that read the last byte: after a clock jump, or when
`startTime + 1000` wraps around. -/
theorem knownStart_timeout_after_terminator :
    (knownStart 3 jumpWorld).map (fun x => (x.1, x.2.consumed)) =
      some (TIMEOUT_ERROR, ['\n', '\r']) ∧
    (knownStart 3 wrapWorld).map (fun x => (x.1, x.2.consumed)) =
      some (TIMEOUT_ERROR, ['\n', '\r']) := by
  constructor <;> decide

/-! ## `knownStart`: the inactivity window -/

/-- C10 (amended): the timeout of `knownStart` is an inactivity window that
restarts on every received byte.  On a port that delivers no byte, with the
timestamp `rdg w 0` taken after the probe was written and no overflow of
`startTime + 1000`, `knownStart` returns `TIMEOUT_ERROR` at the first clock
reading that is more than 1000 ms after the timestamp, and not before.  In
general, from any state of the loop whose `startTime` is `st`, silence makes it
return `TIMEOUT_ERROR` at the first reading that is more than 1000 ms after `st`,
and not before; and a received byte replaces `startTime` by the reading taken
right after it, so that the previous `startTime` no longer matters. -/
theorem knownStart_inactivity (w : World) (n : Nat)
    (hsilent : ∀ i, i ≤ n → rxv w i = none)
    (hov : rdg w 0 + 1000 < ULONG_MODULUS)
    (hearly : ∀ i, i < n → rdg w (i + 1) ≤ rdg w 0 + 1000)
    (hlate : rdg w 0 + 1000 < rdg w (n + 1)) :
    (∀ fuel, n + 1 ≤ fuel →
      knownStart fuel w = some (TIMEOUT_ERROR, after (printf ['\r'] w) (n + 2) (n + 1))) ∧
    (∀ fuel, fuel ≤ n → knownStart fuel w = none) ∧
    (∀ (m : Nat) (b : List Char) (st : Nat) (u : World),
      endsWith b EOL = false →
      (∀ i, i ≤ m → rxv u i = none) →
      st + 1000 < ULONG_MODULUS →
      (∀ i, i < m → rdg u i ≤ st + 1000) →
      st + 1000 < rdg u m →
      (∀ fuel, m + 1 ≤ fuel →
        knownStartLoop fuel b st u = some (TIMEOUT_ERROR, after u (m + 1) (m + 1))) ∧
      (∀ fuel, fuel ≤ m → knownStartLoop fuel b st u = none)) ∧
    (∀ (fuel : Nat) (b : List Char) (st : Nat) (u : World) (c : Char),
      endsWith b EOL = false → rxv u 0 = some c →
      knownStartLoop (fuel + 1) b st u =
        if (rdg u 0 + 1000) % ULONG_MODULUS < rdg u 1 then some (TIMEOUT_ERROR, after u 2 1)
        else knownStartLoop fuel (concat b c) (rdg u 0) (after u 2 1)) := by
  obtain ⟨h1, h2⟩ := knownStartLoop_silence n [] (rdg w 0) (after (printf ['\r'] w) 1 0)
    endsWith_nil_EOL (fun i hi => by rw [rxv_written]; exact hsilent i hi) hov
    (fun i hi => by rw [rdg_written, Nat.add_comm 1 i]; exact hearly i hi)
    (by rw [rdg_written, Nat.add_comm 1 n]; exact hlate)
  refine ⟨?_, ?_, knownStartLoop_silence, ?_⟩
  · intro fuel hf
    rw [knownStart_eq, h1 fuel hf, after_after]
    congr 3 <;> omega
  · intro fuel hf
    rw [knownStart_eq, h2 fuel hf]
  · intro fuel b st u c hb hrx
    exact knownStartLoop_byte fuel b st u c hb hrx

/-- Witness of C10 (amended) on a silent port whose clock advances by 500 ms per
reading: the probe is stamped at 0 and `knownStart` returns at the reading
1500, after the readings 500 and 1000. -/
theorem knownStart_inactivity_witness :
    (∀ i, i ≤ 2 → rxv silentWorld i = none) ∧
    rdg silentWorld 0 = 0 ∧ rdg silentWorld 2 = 1000 ∧ rdg silentWorld 3 = 1500 ∧
    (∀ fuel, 2 + 1 ≤ fuel →
      knownStart fuel silentWorld =
        some (TIMEOUT_ERROR, after (printf ['\r'] silentWorld) (2 + 2) (2 + 1))) ∧
    (∀ fuel, fuel ≤ 2 → knownStart fuel silentWorld = none) :=
  have h := knownStart_inactivity silentWorld 2 (by decide) (by decide) (by decide) (by decide)
  ⟨by decide, rfl, rfl, rfl, h.1, h.2.1⟩

/-- C10 as stated fails at exactly 1000 ms: the probe is stamped at 0 and the
next three readings are 1000, yet `knownStart` is still looping after three
iterations; it returns `TIMEOUT_ERROR` at its fifth clock reading, 1001. -/
theorem knownStart_no_timeout_at_1000 :
    rdg exactWorld 0 = 0 ∧ rdg exactWorld 1 = 1000 ∧ rdg exactWorld 3 = 1000 ∧
    rdg exactWorld 4 = 1001 ∧
    knownStart 3 exactWorld = none ∧
    (knownStart 4 exactWorld).map (fun x => (x.1, x.2.clockCalls, x.2.polls)) =
      some (TIMEOUT_ERROR, 5, 4) := by
  refine ⟨rfl, rfl, rfl, rfl, rfl, by decide⟩

/-! ## The bytes written -/

/-- C11 (amended): whenever one of `stdCmd`, `stdSetParam`, `stdGetParam`
returns, whatever the result, the bytes it has written are exactly the probe
`\r` followed by the command line and nothing else: `c_str command` and `\r`
for `stdCmd`, `SET `, `c_str command`, `=`, `c_str param` and `\r` for
`stdSetParam`, `GET `, `c_str command` and `\r` for `stdGetParam`, where `c_str s`
is `s` up to its first NUL character, and is all of `s` when `s` contains no
NUL. -/
theorem written_bytes (fuel : Nat) (w : World) (command param : List Char) :
    (∀ r u, stdCmd fuel command w = some (r, u) →
      u.written = w.written ++ ['\r'] ++ (c_str command ++ ['\r'])) ∧
    (∀ r u, stdSetParam fuel command param w = some (r, u) →
      u.written = w.written ++ ['\r'] ++
        (['S', 'E', 'T', ' '] ++ c_str command ++ ['='] ++ c_str param ++ ['\r'])) ∧
    (∀ r q u, stdGetParam fuel command param w = some (r, q, u) →
      u.written = w.written ++ ['\r'] ++ (['G', 'E', 'T', ' '] ++ c_str command ++ ['\r'])) ∧
    ((∀ c, c ∈ command → c ≠ Char.ofNat 0) → c_str command = command) ∧
    ((∀ c, c ∈ param → c ≠ Char.ofNat 0) → c_str param = param) := by
  refine ⟨?_, ?_, ?_, c_str_eq_self command, c_str_eq_self param⟩
  · intro r u h
    exact run_written (Operation.cmd command) fuel [] w (r, [], u) (by simp [Operation.run, h])
  · intro r u h
    exact run_written (Operation.setParam command param) fuel [] w (r, [], u)
      (by simp [Operation.run, h])
  · intro r q u h
    exact run_written (Operation.getParam command) fuel param w (r, q, u) h

/-- Witness of C11 (amended): on the port that answers `ERROR` and `OK`,
`stdCmd("WRITE")` returns `SUCCESS` having written the probe and `WRITE\r`; on a
silent port `stdSetParam` and `stdGetParam` time out having written the probe
and their command line. -/
theorem written_bytes_witness :
    (stdCmd 8 "WRITE".toList okWorld).map (fun x => (x.1, x.2.written)) =
      some (SUCCESS, "\rWRITE\r".toList) ∧
    (stdSetParam 4 "BLE_ROLE".toList ['0'] silentWorld).map (fun x => (x.1, x.2.written)) =
      some (TIMEOUT_ERROR, "\rSET BLE_ROLE=0\r".toList) ∧
    (stdGetParam 4 "NAME".toList [] silentWorld).map (fun x => (x.1, x.2.2.written)) =
      some (TIMEOUT_ERROR, "\rGET NAME\r".toList) ∧
    (∀ r u, stdCmd 8 "WRITE".toList okWorld = some (r, u) →
      u.written = okWorld.written ++ ['\r'] ++ (c_str "WRITE".toList ++ ['\r'])) ∧
    c_str "WRITE".toList = "WRITE".toList :=
  ⟨by decide, by decide, by decide,
    (written_bytes 8 okWorld "WRITE".toList []).1,
    (written_bytes 8 okWorld "WRITE".toList []).2.2.2.1 (by decide)⟩

/-- C11 as stated fails for a command that contains a NUL character:
`printf("%s\r", command.c_str())` stops at the NUL, so for the three-character
command `A`, NUL, `B` the bytes written are the probe, `A` and `\r`. -/
theorem written_bytes_stop_at_nul :
    (stdCmd 6 ['A', Char.ofNat 0, 'B'] silentWorld).map (fun x => (x.1, x.2.written)) =
      some (TIMEOUT_ERROR, ['\r', 'A', '\r']) ∧
    ['\r', 'A', '\r'] ≠ ['\r'] ++ (['A', Char.ofNat 0, 'B'] ++ ['\r']) := by
  constructor <;> decide

/-! ## `knownStart` twice -/

/-- C12: on a flushed port (no byte pending, none arriving) two runs of
`knownStart` in a row both return `TIMEOUT_ERROR`, neither reads a byte, and the
port is as silent after the second run as after the first; the second run
appends the one-byte probe to the bytes written and changes nothing else of the
port (the clock and the count of polls move on).  Both runs do return when the
clock passes 1000 ms after each probe's timestamp without overflow. -/
theorem knownStart_twice (w : World) (hsilent : ∀ i, rxv w i = none) :
    (∀ (f1 f2 : Nat) (r1 r2 : opResult) (u1 u2 : World),
      knownStart f1 w = some (r1, u1) → knownStart f2 u1 = some (r2, u2) →
      r1 = TIMEOUT_ERROR ∧ r2 = r1 ∧
      u1.consumed = w.consumed ∧ u2.consumed = u1.consumed ∧
      (∀ i, rxv u1 i = none) ∧ (∀ i, rxv u2 i = none) ∧
      u1.written = w.written ++ ['\r'] ∧ u2.written = u1.written ++ ['\r'] ∧
      u2.serialIn = u1.serialIn ∧ u2.clock = u1.clock) ∧
    (∀ n1 n2 : Nat,
      rdg w 0 + 1000 < ULONG_MODULUS →
      (∀ i, i < n1 → rdg w (i + 1) ≤ rdg w 0 + 1000) →
      rdg w 0 + 1000 < rdg w (n1 + 1) →
      rdg w (n1 + 2) + 1000 < ULONG_MODULUS →
      (∀ i, i < n2 → rdg w (n1 + 2 + (i + 1)) ≤ rdg w (n1 + 2) + 1000) →
      rdg w (n1 + 2) + 1000 < rdg w (n1 + 2 + (n2 + 1)) →
      ∀ fuel, n1 + 1 ≤ fuel → n2 + 1 ≤ fuel →
        knownStart fuel w =
          some (TIMEOUT_ERROR, after (printf ['\r'] w) (n1 + 2) (n1 + 1)) ∧
        knownStart fuel (after (printf ['\r'] w) (n1 + 2) (n1 + 1)) =
          some (TIMEOUT_ERROR,
            after (printf ['\r'] (after (printf ['\r'] w) (n1 + 2) (n1 + 1)))
              (n2 + 2) (n2 + 1))) := by
  constructor
  · intro f1 f2 r1 r2 u1 u2 h1 h2
    obtain ⟨a1, a2, a3, a4, a5, a6⟩ := knownStart_silent_sound f1 w r1 u1 hsilent h1
    obtain ⟨b1, b2, b3, b4, b5, b6⟩ := knownStart_silent_sound f2 u1 r2 u2 a4 h2
    exact ⟨a1, by rw [a1, b1], a2, b2, a4, b4, a3, b3, b6, b5⟩
  · intro n1 n2 hov1 he1 hl1 hov2 he2 hl2 fuel hf1 hf2
    refine ⟨knownStart_silence w n1 (fun i _ => hsilent i) hov1 he1 hl1 fuel hf1, ?_⟩
    have hr : ∀ i, rdg (after (printf ['\r'] w) (n1 + 2) (n1 + 1)) i = rdg w (n1 + 2 + i) := by
      intro i; simp [rdg, after, printf, Nat.add_assoc]
    exact knownStart_silence _ n2
      (fun i _ => by
        have := hsilent (n1 + 1 + i)
        simpa [rxv, after, printf, Nat.add_assoc] using this)
      (by rw [hr, Nat.add_zero]; exact hov2)
      (fun i hi => by rw [hr, hr, Nat.add_zero]; exact he2 i hi)
      (by rw [hr, hr, Nat.add_zero]; exact hl2) fuel hf2

/-- Witness of C12 on a silent port whose clock advances by 500 ms per
reading: the first run is stamped at 0 and returns at 1500, the second is
stamped at 2000 and returns at 3500; nothing is read and the probe is written
twice. -/
theorem knownStart_twice_witness :
    (∀ i, rxv silentWorld i = none) ∧
    (knownStart 3 silentWorld =
        some (TIMEOUT_ERROR, after (printf ['\r'] silentWorld) (2 + 2) (2 + 1)) ∧
      knownStart 3 (after (printf ['\r'] silentWorld) (2 + 2) (2 + 1)) =
        some (TIMEOUT_ERROR,
          after (printf ['\r'] (after (printf ['\r'] silentWorld) (2 + 2) (2 + 1)))
            (2 + 2) (2 + 1))) ∧
    (after (printf ['\r'] (after (printf ['\r'] silentWorld) (2 + 2) (2 + 1)))
      (2 + 2) (2 + 1)).written = ['\r', '\r'] ∧
    (after (printf ['\r'] (after (printf ['\r'] silentWorld) (2 + 2) (2 + 1)))
      (2 + 2) (2 + 1)).consumed = [] :=
  have hs : ∀ i, rxv silentWorld i = none := fun i => by
    simp [rxv, silentWorld, simWorld, feedBytes]
  ⟨hs,
    (knownStart_twice silentWorld hs).2 2 2 (by decide) (by decide) (by decide) (by decide)
      (by decide) (by decide) 3 (by decide) (by decide),
    rfl, rfl⟩

/-! ## Timestamp wraparound -/

/-- C13: timestamps are 32-bit unsigned and `startTime + deadline` is computed
modulo 2^32.  For each of the four operations, when the timestamp taken after
the command was written is within `deadline` ms of the maximum and the clock has
not wrapped at the next reading, the loop condition is false on the first check:
the operation returns `TIMEOUT_ERROR` after two clock calls and no poll, so
without reading any byte, with less than `deadline` ms elapsed (3000 for `stdCmd`,
2000 for the others).  Likewise `knownStart`, stamped within 1000 ms of the
maximum on a port silent at the first poll, returns `TIMEOUT_ERROR` at its first
test with less than 1000 ms elapsed. -/
theorem deadline_wraparound (op : Operation) (w w1 : World) (r0 : opResult) (f0 : Nat)
    (hk : knownStart f0 w = some (r0, w1)) (param : List Char)
    (hnear : ULONG_MODULUS - op.deadline ≤ rdg w1 0)
    (hnext : rdg w1 0 ≤ rdg w1 1) :
    (∀ fuel, f0 ≤ fuel → 1 ≤ fuel →
      op.run fuel param w = some (TIMEOUT_ERROR, param, after (printf op.line w1) 2 0)) ∧
    rdg w1 1 - rdg w1 0 < op.deadline ∧
    (∀ u : World, ULONG_MODULUS - 1000 ≤ rdg u 0 → rdg u 0 ≤ rdg u 1 → rxv u 0 = none →
      (∀ fuel, 1 ≤ fuel →
        knownStart fuel u = some (TIMEOUT_ERROR, after (printf ['\r'] u) 2 1)) ∧
      rdg u 1 - rdg u 0 < 1000) := by
  have hD := deadline_bounds op
  have h0 := rdg_lt w1 0
  have h1 := rdg_lt w1 1
  refine ⟨?_, ?_, ?_⟩
  · intro fuel hf0 hf1
    obtain ⟨f, rfl⟩ := Nat.exists_eq_add_of_le hf1
    rw [run_eq, knownStart_mono f0 _ w _ hk hf0]
    simp only
    have hc : ¬ (rdg w1 0 + op.deadline) % ULONG_MODULUS >
        rdg (after (printf op.line w1) 1 0) 0 := by
      rw [rdg_written, Nat.add_zero]
      simp only [ULONG_MODULUS] at *
      omega
    rw [Nat.add_comm 1 f, lineLoop_timeout _ _ _ f [] param _ _ hc, after_after]
  · simp only [ULONG_MODULUS] at *
    omega
  · intro u hu hn hrx
    have g0 := rdg_lt u 0
    have g1 := rdg_lt u 1
    constructor
    · intro fuel hf
      obtain ⟨f, rfl⟩ := Nat.exists_eq_add_of_le hf
      have hfire : (rdg u 0 + 1000) % ULONG_MODULUS < rdg (after (printf ['\r'] u) 1 0) 0 := by
        have e : rdg (after (printf ['\r'] u) 1 0) 0 = rdg u 1 := rdg_written _ _ _ _
        rw [e]
        simp only [ULONG_MODULUS] at *
        omega
      rw [knownStart_eq, Nat.add_comm 1 f,
        knownStartLoop_idle f [] _ _ endsWith_nil_EOL (by rw [rxv_written]; exact hrx),
        if_pos hfire, after_after]
    · simp only [ULONG_MODULUS] at *
      omega

/-- Witness of C13: 500 ms before the wrap `knownStart` returns at its first
test, and `stdCmd`, stamped 498 ms before the wrap, returns `TIMEOUT_ERROR` 1 ms
later without a poll although `OK` is ready to be read. -/
theorem deadline_wraparound_witness :
    knownStart 1 nearWrapWorld =
      some (TIMEOUT_ERROR, after (printf ['\r'] nearWrapWorld) 2 1) ∧
    rdg (after (printf ['\r'] nearWrapWorld) 2 1) 0 = 4294966798 ∧
    rdg (after (printf ['\r'] nearWrapWorld) 2 1) 1 = 4294966799 ∧
    rxv (after (printf ['\r'] nearWrapWorld) 2 1) 0 = some 'O' ∧
    (∀ fuel, 1 ≤ fuel → 1 ≤ fuel →
      (Operation.cmd ['W', 'R', 'I', 'T', 'E']).run fuel [] nearWrapWorld =
        some (TIMEOUT_ERROR, [],
          after (printf (Operation.cmd ['W', 'R', 'I', 'T', 'E']).line
            (after (printf ['\r'] nearWrapWorld) 2 1)) 2 0)) ∧
    (stdCmd 1 ['W', 'R', 'I', 'T', 'E'] nearWrapWorld).map (fun x => (x.1, x.2.consumed)) =
      some (TIMEOUT_ERROR, []) :=
  ⟨rfl, rfl, rfl, rfl,
    (deadline_wraparound (Operation.cmd ['W', 'R', 'I', 'T', 'E']) nearWrapWorld
      (after (printf ['\r'] nearWrapWorld) 2 1) TIMEOUT_ERROR 1 rfl [] (by decide)
      (by decide)).1,
    by decide⟩

/-! ## The line buffer -/

/-- C14: the line buffer of the classification loops.  The four source loops
are instances of `lineLoop`.  If the loop of an operation has not returned
within `k` iterations, it is at the start of iteration `k` with a buffer `b` that
contains no terminator and is what the received bytes `incoming w k` hold after
their last terminator (`pre` is empty or ends with the terminator).  And when the
byte appended in an iteration makes the buffer end with the terminator, that
iteration returns (`ER`, or the success prefix) or goes on with the empty buffer,
whether or not the line matched the captured name. -/
theorem buffer_invariant (op : Operation) (k : Nat) (p : List Char) (st : Nat) (w : World)
    (h : lineLoop op.deadline op.okMark op.captured k [] p st w = none) :
    (∃ (b p' : List Char),
      (∀ fuel, lineLoop op.deadline op.okMark op.captured (k + fuel) [] p st w =
        lineLoop op.deadline op.okMark op.captured fuel b p' st (after w k k)) ∧
      ¬ EOL <:+: b ∧
      ∃ pre, incoming w k = pre ++ b ∧ (pre = [] ∨ EOL <:+ pre)) ∧
    (∀ (fuel : Nat) (b q : List Char) (u : World) (c : Char),
      (st + op.deadline) % ULONG_MODULUS > rdg u 0 → rxv u 0 = some c →
      EOL <:+ concat b c →
      lineLoop op.deadline op.okMark op.captured (fuel + 1) b q st u =
          some (MODULE_ERROR, q, after u 1 1) ∨
        lineLoop op.deadline op.okMark op.captured (fuel + 1) b q st u =
          some (SUCCESS, q, after u 1 1) ∨
        lineLoop op.deadline op.okMark op.captured (fuel + 1) b q st u =
          lineLoop op.deadline op.okMark op.captured fuel []
            (capture op.captured (concat b c) q) st (after u 1 1)) ∧
    (∀ (fuel : Nat) (b q : List Char) (t : Nat) (u : World) (command : List Char),
      stdCmdLoop fuel b t u =
        (lineLoop 3000 ['O', 'K'] none fuel b q t u).map (fun x => (x.1, x.2.2)) ∧
      stdSetParamLoop fuel b t u =
        (lineLoop 2000 ['O', 'K'] none fuel b q t u).map (fun x => (x.1, x.2.2)) ∧
      stdGetParamLoop command fuel b q t u =
        lineLoop 2000 ['O', 'K'] (some command) fuel b q t u ∧
      resetLoop fuel b t u =
        (lineLoop 2000 ['R', 'e'] none fuel b q t u).map (fun x => (x.1, x.2.2))) := by
  refine ⟨?_, ?_, ?_⟩
  · obtain ⟨b, p', e1, e2, pre, e3, e4⟩ :=
      lineLoop_buffer op.deadline op.okMark op.captured st k [] p w (by decide) h
    exact ⟨b, p', e1, e2, pre, by simpa using e3, e4⟩
  · intro fuel b q u c hd hrx he
    rw [lineLoop_byte _ _ _ fuel b q st u c hd hrx, if_pos ((endsWith_iff _ _).mpr he)]
    by_cases h1 : startsWith (concat b c) ['E', 'R'] = true
    · left; rw [if_pos h1]
    · right
      rw [if_neg h1]
      by_cases h2 : startsWith (concat b c) op.okMark = true
      · left; rw [if_pos h2]
      · right; rw [if_neg h2]
  · intro fuel b q t u command
    exact ⟨stdCmdLoop_eq q fuel b t u, stdSetParamLoop_eq q fuel b t u,
      stdGetParamLoop_eq command fuel b q t u, resetLoop_eq q fuel b t u⟩

/-- Witness of C14: the loop of `stdCmd` after five iterations that read the
line `ab`, the terminator and `c`; the buffer is `c`. -/
theorem buffer_invariant_witness :
    lineLoop 3000 ['O', 'K'] none 5 [] [] 0 (simWorld 100 "ab\n\rc".toList) = none ∧
    incoming (simWorld 100 "ab\n\rc".toList) 5 = "ab\n\r".toList ++ ['c'] ∧
    ∃ (b p' : List Char),
      (∀ fuel, lineLoop 3000 ['O', 'K'] none (5 + fuel) [] [] 0 (simWorld 100 "ab\n\rc".toList) =
        lineLoop 3000 ['O', 'K'] none fuel b p' 0 (after (simWorld 100 "ab\n\rc".toList) 5 5)) ∧
      ¬ EOL <:+: b ∧
      ∃ pre, incoming (simWorld 100 "ab\n\rc".toList) 5 = pre ++ b ∧ (pre = [] ∨ EOL <:+ pre) :=
  ⟨rfl, rfl,
    (buffer_invariant (Operation.cmd []) 5 [] 0 (simWorld 100 "ab\n\rc".toList) rfl).1⟩

/-! ## `stdSetParam` and the loop of `stdCmd` -/

/-- C15: `stdCmdLoopWith` at 3000 is the loop of `stdCmd`; the loop of
`stdSetParam` is `stdCmdLoopWith` at 2000 on every buffer, start timestamp and
environment, results and environments equal, so the same bytes are read at the
same polls; and `stdSetParam` is `knownStart`, the write of the `SET` line, a
timestamp and that loop. -/
theorem stdSetParam_is_stdCmd_loop :
    (∀ (fuel : Nat) (b : List Char) (st : Nat) (w : World),
      stdCmdLoopWith 3000 fuel b st w = stdCmdLoop fuel b st w) ∧
    (∀ (fuel : Nat) (b : List Char) (st : Nat) (w : World),
      stdSetParamLoop fuel b st w = stdCmdLoopWith 2000 fuel b st w) ∧
    (∀ (fuel : Nat) (command param : List Char) (w : World),
      stdSetParam fuel command param w =
        match knownStart fuel w with
        | none => none
        | some k =>
          stdCmdLoopWith 2000 fuel []
            (millis (printf (['S', 'E', 'T', ' '] ++ c_str command ++ ['='] ++ c_str param ++
              ['\r']) k.2)).1
            (millis (printf (['S', 'E', 'T', ' '] ++ c_str command ++ ['='] ++ c_str param ++
              ['\r']) k.2)).2) := by
  refine ⟨stdCmdLoopWith_3000, stdSetParamLoop_eq_with, ?_⟩
  intro fuel command param w
  unfold stdSetParam
  cases knownStart fuel w with
  | none => rfl
  | some k => exact stdSetParamLoop_eq_with _ _ _ _

/-! ## `stdGetParam`: storing the value -/

/-- C16: in the loop of `stdGetParam`, when the byte read in an iteration
completes a line that starts with the queried name and not with `ER` or `OK`, the
loop goes on, with an empty buffer and with the output string set to `trim` of
the line without its first `length(name) + 1` characters: storing the value
does not return.  Whenever the loop returns afterwards, it is with `SUCCESS` or
`MODULE_ERROR` on a later complete line that starts with `OK` or `ER`, or with
`TIMEOUT_ERROR` on a clock reading at which the loop condition is false. -/
theorem getParam_stores_value (command : List Char) (fuel : Nat) (b p : List Char) (st : Nat)
    (w : World) (c : Char)
    (hd : (st + 2000) % ULONG_MODULUS > rdg w 0) (hrx : rxv w 0 = some c)
    (he : EOL <:+ concat b c)
    (h1 : startsWith (concat b c) ['E', 'R'] = false)
    (h2 : startsWith (concat b c) ['O', 'K'] = false)
    (hn : startsWith (concat b c) command = true) :
    stdGetParamLoop command (fuel + 1) b p st w =
      stdGetParamLoop command fuel []
        (trim ((concat b c).drop (command.length + 1))) st (after w 1 1) ∧
    (∀ (r : opResult) (q : List Char) (u : World),
      stdGetParamLoop command fuel []
        (trim ((concat b c).drop (command.length + 1))) st (after w 1 1) = some (r, q, u) →
      (r = SUCCESS ∨ r = MODULE_ERROR ∨ r = TIMEOUT_ERROR) ∧
      (r = SUCCESS → ∃ pre fin, u.consumed = (after w 1 1).consumed ++ (pre ++ (fin ++ EOL)) ∧
        startsWith (fin ++ EOL) ['O', 'K'] = true) ∧
      (r = MODULE_ERROR → ∃ pre fin, u.consumed = (after w 1 1).consumed ++ (pre ++ (fin ++ EOL)) ∧
        startsWith (fin ++ EOL) ['E', 'R'] = true) ∧
      (r = TIMEOUT_ERROR →
        ¬ (st + 2000) % ULONG_MODULUS > u.clock (u.clockCalls - 1) % ULONG_MODULUS)) := by
  constructor
  · rw [stdGetParamLoop_eq, stdGetParamLoop_eq,
      lineLoop_byte 2000 ['O', 'K'] (some command) fuel b p st w c hd hrx,
      if_pos ((endsWith_iff _ _).mpr he), h1, h2]
    simp [capture, hn, substring]
  · intro r q u h
    rw [stdGetParamLoop_eq] at h
    obtain ⟨bytes, lines, tail, e1, e2, _, _, e5, e6, e7, _⟩ :=
      lineLoop_sound _ _ _ _ _ _ _ _ _ _ _ (by decide) h
    simp only [List.nil_append] at e2
    refine ⟨e5, ?_, ?_, ?_⟩
    · intro hr
      obtain ⟨⟨fin, hfin, _⟩, _, hok⟩ := e6 hr
      exact ⟨_, fin, by rw [e1, e2, hfin], by rw [← hfin]; exact hok⟩
    · intro hr
      obtain ⟨⟨fin, hfin, _⟩, her⟩ := e7 hr
      exact ⟨_, fin, by rw [e1, e2, hfin], by rw [← hfin]; exact her⟩
    · intro hr
      subst hr
      exact lineLoop_timeout_reading _ _ _ _ _ _ _ _ _ _ h

/-- Witness of C16: with `N=5` and a newline in the buffer, the carriage
return completes the line; the value `5` is stored and the loop returns
`SUCCESS` with it only at the line `OK`. -/
theorem getParam_stores_value_witness :
    stdGetParamLoop ['N'] (6 + 1) "N=5\n".toList "old".toList 0 valueWorld =
      stdGetParamLoop ['N'] 6 [] (trim ((concat "N=5\n".toList '\r').drop (['N'].length + 1)))
        0 (after valueWorld 1 1) ∧
    trim ((concat "N=5\n".toList '\r').drop (['N'].length + 1)) = ['5'] ∧
    (stdGetParamLoop ['N'] (6 + 1) "N=5\n".toList "old".toList 0 valueWorld).map
      (fun x => (x.1, x.2.1, x.2.2.consumed)) = some (SUCCESS, ['5'], "\r\n\rOK\n\r".toList) :=
  ⟨(getParam_stores_value ['N'] 6 "N=5\n".toList "old".toList 0 valueWorld '\r'
      (by decide) rfl (by decide) (by decide) (by decide) (by decide)).1,
    by decide, by decide⟩

/-! ## Termination of the classification loop -/

/-- C17: for each of the four operations, once `knownStart` has returned and
the timestamp `rdg w1 0` has been taken, if some later clock reading `n + 1` is at
least `start + deadline`, the operation returns within `n + 1` iterations of its
loop, whatever the port delivers.  More generally the loop returns within
`m + 1` iterations from every buffer and environment as soon as the loop condition
is false at reading `m`. -/
theorem loop_terminates (op : Operation) (w w1 : World) (r0 : opResult) (f0 : Nat)
    (hk : knownStart f0 w = some (r0, w1)) (param : List Char) (n : Nat)
    (hreach : rdg w1 0 + op.deadline ≤ rdg w1 (n + 1)) :
    (∀ fuel, f0 ≤ fuel → n + 1 ≤ fuel →
      ∃ (r : opResult) (q : List Char) (u : World), op.run fuel param w = some (r, q, u)) ∧
    (∀ (st m : Nat) (b p : List Char) (u : World),
      ¬ (st + op.deadline) % ULONG_MODULUS > rdg u m →
      ∀ fuel, m + 1 ≤ fuel →
        ∃ x, lineLoop op.deadline op.okMark op.captured fuel b p st u = some x) := by
  refine ⟨?_, fun st m b p u hm fuel hf => lineLoop_terminates _ _ _ st m b p u hm fuel hf⟩
  intro fuel hf0 hfn
  rw [run_eq, knownStart_mono f0 fuel w _ hk hf0]
  simp only
  have hlt := rdg_lt w1 (n + 1)
  have hc : ¬ (rdg w1 0 + op.deadline) % ULONG_MODULUS >
      rdg (after (printf op.line w1) 1 0) n := by
    rw [rdg_written, Nat.add_comm 1 n, Nat.mod_eq_of_lt (by omega)]
    omega
  obtain ⟨⟨r, q, u⟩, hx⟩ := lineLoop_terminates op.deadline op.okMark op.captured (rdg w1 0) n
    [] param _ hc fuel hfn
  exact ⟨r, q, u, hx⟩

/-- Witness of C17: on a port that delivers `x` forever and never a
terminator, `stdCmd`, stamped at 2000 ms, returns `TIMEOUT_ERROR` at the reading
5000 after reading five bytes. -/
theorem loop_terminates_witness :
    knownStart 3 chatterWorld = some (TIMEOUT_ERROR, after (printf ['\r'] chatterWorld) 4 3) ∧
    rdg (after (printf ['\r'] chatterWorld) 4 3) 0 = 2000 ∧
    rdg (after (printf ['\r'] chatterWorld) 4 3) (5 + 1) = 5000 ∧
    (∀ fuel, 3 ≤ fuel → 5 + 1 ≤ fuel →
      ∃ (r : opResult) (q : List Char) (u : World),
        (Operation.cmd ['W', 'R', 'I', 'T', 'E']).run fuel [] chatterWorld = some (r, q, u)) ∧
    (stdCmd 6 ['W', 'R', 'I', 'T', 'E'] chatterWorld).map (fun x => (x.1, x.2.consumed)) =
      some (TIMEOUT_ERROR, ['x', 'x', 'x', 'x', 'x']) :=
  ⟨rfl, rfl, rfl,
    (loop_terminates (Operation.cmd ['W', 'R', 'I', 'T', 'E']) chatterWorld
      (after (printf ['\r'] chatterWorld) 4 3) TIMEOUT_ERROR 3 rfl [] 5 (by decide)).1,
    by decide⟩

/-! ## The result of `knownStart` is dropped -/

/-- C18: each of the four operations drops the result `r0` of `knownStart`:
whatever it is, the operation writes its line to the environment `w1` that
`knownStart` left, takes the timestamp and runs its loop from the empty buffer.
`knownStart` has read the bytes of the first `k` polls, and the loop sees only the
polls after them.  The result and the output string are the same for any other
call whose `knownStart` leaves the same clock and the same remaining input,
whatever `knownStart` returned there and whatever was written or read before. -/
theorem resync_result_ignored (op : Operation) (w w1 : World) (r0 : opResult) (f0 : Nat)
    (hk : knownStart f0 w = some (r0, w1)) (param : List Char) (fuel : Nat) (hf : f0 ≤ fuel) :
    op.run fuel param w =
      lineLoop op.deadline op.okMark op.captured fuel [] param (rdg w1 0)
        (after (printf op.line w1) 1 0) ∧
    (∃ k : Nat, w1.polls = w.polls + k ∧ w1.consumed = w.consumed ++ incoming w k) ∧
    (∀ (w2 w3 : World) (r2 : opResult), knownStart f0 w2 = some (r2, w3) →
      w3.clock = w1.clock → w3.clockCalls = w1.clockCalls → w3.serialIn = w1.serialIn →
      w3.polls = w1.polls →
      (op.run fuel param w2).map (fun x => (x.1, x.2.1)) =
        (op.run fuel param w).map (fun x => (x.1, x.2.1))) := by
  have hrun : op.run fuel param w =
      lineLoop op.deadline op.okMark op.captured fuel [] param (rdg w1 0)
        (after (printf op.line w1) 1 0) := by
    rw [run_eq, knownStart_mono f0 fuel w _ hk hf]
  refine ⟨hrun, ?_, ?_⟩
  · rw [knownStart_eq] at hk
    obtain ⟨k, e1, e2, _⟩ := knownStartLoop_sound _ _ _ _ _ _ hk
    refine ⟨k, e1, ?_⟩
    rw [e2, incoming_written]; simp [after, printf, incoming, delivered]
  · intro w2 w3 r2 hk2 h1 h2 h3 h4
    rw [hrun, run_eq, knownStart_mono f0 fuel w2 _ hk2 hf]
    simp only
    have hr : rdg w3 0 = rdg w1 0 := by simp [rdg, h1, h2]
    rw [hr]
    exact lineLoop_input_only _ _ _ _ _ _ _ _ _ (by simp [after, printf, h1])
      (by simp [after, printf, h2]) (by simp [after, printf, h3]) (by simp [after, printf, h4])

/-- Witness of C18: an `OK` line pending when `stdCmd` is called is read by
`knownStart`, which returns `SUCCESS`, and `stdCmd` times out on the silence that
follows; and when `knownStart` has timed out on a silent port, `stdCmd` still
writes its command and returns `SUCCESS` on the `OK` line that arrives
afterwards. -/
theorem resync_result_ignored_witness :
    knownStart 5 pendingWorld = some (SUCCESS, after (printf ['\r'] pendingWorld) 9 4) ∧
    (after (printf ['\r'] pendingWorld) 9 4).consumed = ['O', 'K', '\n', '\r'] ∧
    (Operation.cmd ['W', 'R', 'I', 'T', 'E']).run 6 [] pendingWorld =
      lineLoop 3000 ['O', 'K'] none 6 [] [] (rdg (after (printf ['\r'] pendingWorld) 9 4) 0)
        (after (printf ['W', 'R', 'I', 'T', 'E', '\r'] (after (printf ['\r'] pendingWorld) 9 4))
          1 0) ∧
    (stdCmd 6 ['W', 'R', 'I', 'T', 'E'] pendingWorld).map (fun x => (x.1, x.2.consumed)) =
      some (TIMEOUT_ERROR, ['O', 'K', '\n', '\r']) ∧
    (knownStart 4 lateOkWorld).map (fun x => x.1) = some TIMEOUT_ERROR ∧
    (stdCmd 4 ['W', 'R', 'I', 'T', 'E'] lateOkWorld).map (fun x => (x.1, x.2.written)) =
      some (SUCCESS, ['\r', 'W', 'R', 'I', 'T', 'E', '\r']) :=
  ⟨rfl, rfl,
    (resync_result_ignored (Operation.cmd ['W', 'R', 'I', 'T', 'E']) pendingWorld
      (after (printf ['\r'] pendingWorld) 9 4) SUCCESS 5 rfl [] 6 (by decide)).1,
    by decide, by decide, by decide⟩

/-! ## `stdGetParam`: the output string is a frame -/

/-- C19: whenever `stdGetParam` returns, whatever the result, the bytes read
after the command was written are complete lines `lines` that were no status
lines, followed by `tail`: the status line for `SUCCESS` and `MODULE_ERROR`, an
unterminated rest for `TIMEOUT_ERROR`.  The output string is the caller's string
after the capture branch has been applied to `lines` in turn, and that branch
changes it only for a line that starts with the queried name: if none of
`lines` starts with the name, the output string is exactly the caller's. -/
theorem getParam_frame (fuel : Nat) (command param : List Char) (w : World) (r : opResult)
    (q : List Char) (u : World)
    (h : stdGetParam fuel command param w = some (r, q, u)) :
    ∃ (r0 : opResult) (w1 : World) (lines : List (List Char)) (tail : List Char),
      knownStart fuel w = some (r0, w1) ∧
      u.consumed = w1.consumed ++ ((lines.map (fun l => l ++ EOL)).flatten ++ tail) ∧
      (∀ l, l ∈ lines → ¬ EOL <:+: l ∧ startsWith (l ++ EOL) ['E', 'R'] = false ∧
        startsWith (l ++ EOL) ['O', 'K'] = false) ∧
      (r = TIMEOUT_ERROR → ¬ EOL <:+: tail) ∧
      (r = SUCCESS ∨ r = MODULE_ERROR → ∃ fin, tail = fin ++ EOL ∧ ¬ EOL <:+: fin ∧
        (startsWith tail ['E', 'R'] = true ∨ startsWith tail ['O', 'K'] = true)) ∧
      q = captureAll (some command) lines param ∧
      (∀ (l p : List Char), startsWith l command = false → capture (some command) l p = p) ∧
      ((∀ l, l ∈ lines → startsWith (l ++ EOL) command = false) → q = param) := by
  have hrun := run_eq (Operation.getParam command) fuel param w
  simp only [Operation.run] at hrun
  rw [h] at hrun
  cases hk : knownStart fuel w with
  | none => rw [hk] at hrun; simp at hrun
  | some k =>
    obtain ⟨r0, w1⟩ := k
    rw [hk] at hrun
    simp only at hrun
    obtain ⟨bytes, lines, tail, e1, e2, e3, e4, _, e6, e7, e8⟩ :=
      lineLoop_sound _ _ _ _ _ _ _ _ _ _ _ (by decide) hrun.symm
    simp only [List.nil_append] at e2
    refine ⟨r0, w1, lines, tail, rfl, ?_, e3, e8, ?_, e4, ?_, ?_⟩
    · rw [e1, e2]; simp [after, printf, incoming, delivered]
    · rintro (hr | hr)
      · obtain ⟨⟨fin, hfin, hnf⟩, _, hok⟩ := e6 hr
        exact ⟨fin, hfin, hnf, Or.inr hok⟩
      · obtain ⟨⟨fin, hfin, hnf⟩, her⟩ := e7 hr
        exact ⟨fin, hfin, hnf, Or.inl her⟩
    · intro l p hl
      simp [capture, hl]
    · intro hno
      rw [e4]
      rcases captureAll_cases command lines param with ⟨_, hc⟩ | ⟨l, hl, hs, _⟩
      · exact hc
      · rw [hno l hl] at hs
        exact absurd hs (by decide)

/-- Witness of C19: the port answers the query with `ERXYZ`; `stdGetParam`
returns `MODULE_ERROR` and the output string is still the caller's. -/
theorem getParam_frame_witness :
    stdGetParam 8 ['N', 'A', 'M', 'E'] "old".toList erWorld =
      some (MODULE_ERROR, "old".toList,
        after (printf "GET NAME\r".toList (after (printf ['\r'] erWorld) 15 7)) 8 7) ∧
    ∃ (r0 : opResult) (w1 : World) (lines : List (List Char)) (tail : List Char),
      knownStart 8 erWorld = some (r0, w1) ∧
      (after (printf "GET NAME\r".toList (after (printf ['\r'] erWorld) 15 7)) 8 7).consumed =
        w1.consumed ++ ((lines.map (fun l => l ++ EOL)).flatten ++ tail) ∧
      (∀ l, l ∈ lines → ¬ EOL <:+: l ∧ startsWith (l ++ EOL) ['E', 'R'] = false ∧
        startsWith (l ++ EOL) ['O', 'K'] = false) ∧
      (MODULE_ERROR = TIMEOUT_ERROR → ¬ EOL <:+: tail) ∧
      (MODULE_ERROR = SUCCESS ∨ MODULE_ERROR = MODULE_ERROR → ∃ fin, tail = fin ++ EOL ∧
        ¬ EOL <:+: fin ∧
        (startsWith tail ['E', 'R'] = true ∨ startsWith tail ['O', 'K'] = true)) ∧
      "old".toList = captureAll (some ['N', 'A', 'M', 'E']) lines "old".toList ∧
      (∀ (l p : List Char), startsWith l ['N', 'A', 'M', 'E'] = false →
        capture (some ['N', 'A', 'M', 'E']) l p = p) ∧
      ((∀ l, l ∈ lines → startsWith (l ++ EOL) ['N', 'A', 'M', 'E'] = false) →
        "old".toList = "old".toList) :=
  ⟨rfl, getParam_frame 8 ['N', 'A', 'M', 'E'] "old".toList erWorld _ _ _ rfl⟩

end BC127
